import Mathlib

/-!
Verification of the multi-source research aggregation and keyword-gap /
competitor-ranking pipeline of the proofpilot-agent-hub backend.

The Lean definitions below are shallow embeddings of the Python functions in
`backend/workflows/keyword_gap.py`, `backend/workflows/prospect_audit.py` and
`backend/utils/dataforseo.py`.  Python dicts that are used as records become
structures with `Option` fields (a missing key is `none`); Python dicts used as
insertion-ordered maps become association lists with in-place update; network
calls become explicit oracle functions returning `Except`; `sorted(...,
reverse=True)` (a stable sort) is modelled by `List.insertionSort` with the
reflexive descending comparison, which is also stable and hence extensionally
equal to any stable sort.
-/

namespace ProofPilot

open List

/-! ### Python string primitives

These model the CPython string operations used by the pipeline for ASCII text
(the pipeline feeds them domain names and search keywords).  `str.lower` is
modelled on ASCII letters, `str.strip` with the ASCII whitespace characters
`' '`, `'\t'`, `'\n'`, `'\r'`, `'\x0b'`, `'\x0c'`. -/

/-- Model of Python `str.lower()` on one character: uppercase ASCII letters map
to their lowercase form, every other character is unchanged. -/
def pyLowerChar (c : Char) : Char :=
  if 65 ≤ c.toNat ∧ c.toNat ≤ 90 then Char.ofNat (c.toNat + 32) else c

/-- Model of Python `str.lower()`. -/
def pyLower (s : String) : String := ⟨s.data.map pyLowerChar⟩

/-- The whitespace characters removed by Python `str.strip()`, by code point:
space, tab, newline, carriage return, vertical tab, form feed. -/
def pyIsSpace (c : Char) : Bool :=
  c.toNat = 32 ∨ c.toNat = 9 ∨ c.toNat = 10 ∨ c.toNat = 13 ∨ c.toNat = 11 ∨ c.toNat = 12

/-- Remove the longest prefix and suffix whose characters satisfy `p`
(the common core of Python `str.strip()` and `str.strip("/")`). -/
def stripBothWhile (p : Char → Bool) (l : List Char) : List Char :=
  ((l.dropWhile p).reverse.dropWhile p).reverse

/-- Model of Python `str.strip()` (no argument: strips whitespace). -/
def pyStrip (s : String) : String := ⟨stripBothWhile pyIsSpace s.data⟩

/-- Model of Python `str.strip("/")`. -/
def pyStripSlash (s : String) : String := ⟨stripBothWhile (fun c => c = '/') s.data⟩

/-- Model of the Python substring test `needle in hay`. -/
def strContains (hay needle : String) : Bool := decide (needle.data <:+: hay.data)

/-- Model of Python `s.replace(pat, "")` on character lists: remove every
occurrence of `pat`, scanning left to right, non-overlapping, resuming after
each removed occurrence (exactly CPython's `str.replace` with an empty
replacement).  A degenerate empty pattern leaves the list unchanged (the
pipeline only ever removes the pattern `"www."`). -/
def removeAllAux (pat : List Char) : Nat → List Char → List Char
  | _, [] => []
  | 0, l => l
  | fuel + 1, c :: cs =>
    if pat ≠ [] ∧ pat <+: (c :: cs) then removeAllAux pat fuel ((c :: cs).drop pat.length)
    else c :: removeAllAux pat fuel cs

def removeAll (pat l : List Char) : List Char := removeAllAux pat l.length l

theorem removeAllAux_fuel_congr (pat : List Char) :
    ∀ (f : Nat), ∀ (g : Nat) (l : List Char), l.length ≤ f → l.length ≤ g →
      removeAllAux pat f l = removeAllAux pat g l := by
  intro f
  induction f with
  | zero =>
    intro g l hf _
    have : l = [] := List.eq_nil_of_length_eq_zero (Nat.le_zero.mp hf)
    subst this
    cases g <;> rfl
  | succ f ih =>
    intro g l hf hg
    cases l with
    | nil => cases g <;> rfl
    | cons c cs =>
      cases g with
      | zero => simp at hg
      | succ g' =>
        show (if pat ≠ [] ∧ pat <+: (c :: cs) then removeAllAux pat f ((c :: cs).drop pat.length)
              else c :: removeAllAux pat f cs) =
          (if pat ≠ [] ∧ pat <+: (c :: cs) then removeAllAux pat g' ((c :: cs).drop pat.length)
           else c :: removeAllAux pat g' cs)
        by_cases h : pat ≠ [] ∧ pat <+: (c :: cs)
        · rw [if_pos h, if_pos h]
          have hp : 1 ≤ pat.length := by
            cases pat with
            | nil => exact absurd rfl h.1
            | cons p ps => simp
          have hd : ((c :: cs).drop pat.length).length ≤ f := by
            simp only [List.length_drop, List.length_cons]
            simp only [List.length_cons] at hf
            omega
          have hd2 : ((c :: cs).drop pat.length).length ≤ g' := by
            simp only [List.length_drop, List.length_cons]
            simp only [List.length_cons] at hg
            omega
          exact ih g' _ hd hd2
        · rw [if_neg h, if_neg h]
          congr 1
          exact ih g' cs (by simpa using Nat.le_of_succ_le_succ hf)
            (by simpa using Nat.le_of_succ_le_succ hg)

theorem removeAll_cons (pat : List Char) (c : Char) (cs : List Char) :
    removeAll pat (c :: cs) =
      if pat ≠ [] ∧ pat <+: (c :: cs) then removeAll pat ((c :: cs).drop pat.length)
      else c :: removeAll pat cs := by
  show (if pat ≠ [] ∧ pat <+: (c :: cs) then removeAllAux pat cs.length ((c :: cs).drop pat.length)
        else c :: removeAllAux pat cs.length cs) = _
  by_cases h : pat ≠ [] ∧ pat <+: (c :: cs)
  · rw [if_pos h, if_pos h]
    have hp : 1 ≤ pat.length := by
      cases pat with
      | nil => exact absurd rfl h.1
      | cons p ps => simp
    exact removeAllAux_fuel_congr pat _ _ _
      (by simp only [List.length_drop, List.length_cons]; omega) (le_refl _)
  · rw [if_neg h, if_neg h]
    rfl

/-- Model of Python `s.replace(pat, "")`. -/
def pyRemove (s pat : String) : String := ⟨removeAll pat.data s.data⟩

/-- `s.lower().strip()` — the term normalization used throughout the keyword
gap computation. -/
def normTerm (s : String) : String := pyStrip (pyLower s)

/-! #### Lemmas about the string primitives -/

theorem toNat_ofNat_of_valid {n : ℕ} (h : n.isValidChar) : (Char.ofNat n).toNat = n := by
  unfold Char.ofNat
  rw [dif_pos h]
  rfl

theorem pyLowerChar_idem (c : Char) : pyLowerChar (pyLowerChar c) = pyLowerChar c := by
  unfold pyLowerChar
  by_cases h : 65 ≤ c.toNat ∧ c.toNat ≤ 90
  · rw [if_pos h]
    have hv : (c.toNat + 32).isValidChar := by
      left
      omega
    rw [if_neg]
    rw [toNat_ofNat_of_valid hv]
    omega
  · rw [if_neg h, if_neg h]

theorem pyIsSpace_pyLowerChar (c : Char) : pyIsSpace (pyLowerChar c) = pyIsSpace c := by
  unfold pyLowerChar
  by_cases h : 65 ≤ c.toNat ∧ c.toNat ≤ 90
  · rw [if_pos h]
    have hv : (c.toNat + 32).isValidChar := by
      left
      omega
    have h1 : (Char.ofNat (c.toNat + 32)).toNat = c.toNat + 32 := toNat_ofNat_of_valid hv
    have h2 : pyIsSpace (Char.ofNat (c.toNat + 32)) = false := by
      simp only [pyIsSpace, h1, Bool.decide_or, Bool.or_eq_false_iff, decide_eq_false_iff_not]
      omega
    have h3 : pyIsSpace c = false := by
      simp only [pyIsSpace, Bool.decide_or, Bool.or_eq_false_iff, decide_eq_false_iff_not]
      omega
    rw [h2, h3]
  · rw [if_neg h]

theorem map_dropWhile_comm {α : Type} (f : α → α) (p : α → Bool)
    (hf : ∀ a, p (f a) = p a) : ∀ l : List α, (l.dropWhile p).map f = (l.map f).dropWhile p := by
  intro l
  induction l with
  | nil => rfl
  | cons a l ih =>
    by_cases h : p a = true
    · rw [List.dropWhile_cons_of_pos h, List.map_cons, List.dropWhile_cons_of_pos (by rw [hf]; exact h), ih]
    · rw [List.dropWhile_cons_of_neg (by simpa using h), List.map_cons,
        List.dropWhile_cons_of_neg (by rw [hf]; simpa using h)]

theorem map_stripBothWhile_comm {f : Char → Char} {p : Char → Bool}
    (hf : ∀ a, p (f a) = p a) (l : List Char) :
    (stripBothWhile p l).map f = stripBothWhile p (l.map f) := by
  unfold stripBothWhile
  rw [List.map_reverse, map_dropWhile_comm f p hf, List.map_reverse,
    map_dropWhile_comm f p hf]

theorem dropWhile_idem {α : Type} (p : α → Bool) (l : List α) :
    (l.dropWhile p).dropWhile p = l.dropWhile p := by
  induction l with
  | nil => rfl
  | cons a l ih =>
    by_cases h : p a = true
    · rw [List.dropWhile_cons_of_pos h, ih]
    · rw [List.dropWhile_cons_of_neg (by simpa using h),
        List.dropWhile_cons_of_neg (by simpa using h)]

theorem stripBothWhile_eq_rdropWhile (p : Char → Bool) (l : List Char) :
    stripBothWhile p l = List.rdropWhile p (l.dropWhile p) := rfl

theorem dropWhile_rdropWhile_dropWhile (p : Char → Bool) (l : List Char) :
    (List.rdropWhile p (l.dropWhile p)).dropWhile p = List.rdropWhile p (l.dropWhile p) := by
  rcases hB : List.rdropWhile p (l.dropWhile p) with _ | ⟨b, t⟩
  · simp
  · have hpre : (b :: t) <+: l.dropWhile p := hB ▸ List.rdropWhile_prefix p (l.dropWhile p)
    obtain ⟨u, hu⟩ := hpre
    have hb : p b = false := by
      by_contra hb
      have hb' : p b = true := by simpa using hb
      have h1 : (l.dropWhile p).dropWhile p = l.dropWhile p := dropWhile_idem p l
      rw [← hu] at h1
      have h2 : ((b :: t) ++ u).dropWhile p = (t ++ u).dropWhile p := by
        rw [List.cons_append, List.dropWhile_cons, if_pos hb']
      rw [h2] at h1
      have h3 := congrArg List.length h1
      have h4 : ((t ++ u).dropWhile p).length ≤ (t ++ u).length :=
        (List.dropWhile_sublist _).length_le
      have h5 : ((b :: t) ++ u).length = (t ++ u).length + 1 := by simp
      omega
    rw [List.dropWhile_cons, if_neg (by simp [hb])]

theorem stripBothWhile_idem (p : Char → Bool) (l : List Char) :
    stripBothWhile p (stripBothWhile p l) = stripBothWhile p l := by
  rw [stripBothWhile_eq_rdropWhile, stripBothWhile_eq_rdropWhile,
    dropWhile_rdropWhile_dropWhile, List.rdropWhile_idempotent]

theorem pyLower_idem (s : String) : pyLower (pyLower s) = pyLower s := by
  unfold pyLower
  congr 1
  rw [List.map_map]
  exact List.map_congr_left fun c _ => pyLowerChar_idem c

theorem normTerm_idem (s : String) : normTerm (normTerm s) = normTerm s := by
  unfold normTerm pyStrip pyLower
  congr 1
  have h1 : (stripBothWhile pyIsSpace (s.data.map pyLowerChar)).map pyLowerChar =
      stripBothWhile pyIsSpace ((s.data.map pyLowerChar).map pyLowerChar) :=
    map_stripBothWhile_comm pyIsSpace_pyLowerChar _
  have h2 : (s.data.map pyLowerChar).map pyLowerChar = s.data.map pyLowerChar := by
    rw [List.map_map]
    exact List.map_congr_left fun c _ => pyLowerChar_idem c
  rw [h1, h2, stripBothWhile_idem]

/-! ### Stable descending sort

Model of Python `sorted(xs, key=key, reverse=True)`.  Python's sort is stable;
a stable sort is extensionally determined by the comparison, so any stable
implementation is a faithful model.  We use `List.insertionSort` with the
reflexive descending comparison `key b ≤ key a`, which is stable. -/

def pySortDesc {α : Type} {κ : Type} [LinearOrder κ] (key : α → κ) (l : List α) : List α :=
  l.insertionSort (fun a b => key b ≤ key a)

theorem pySortDesc_perm {α κ : Type} [LinearOrder κ] (key : α → κ) (l : List α) :
    pySortDesc key l ~ l :=
  List.perm_insertionSort _ l

theorem pySortDesc_sorted {α κ : Type} [LinearOrder κ] (key : α → κ) (l : List α) :
    (pySortDesc key l).Sorted (fun a b => key b ≤ key a) := by
  haveI : IsTotal α (fun a b => key b ≤ key a) := ⟨fun a b => le_total (key b) (key a)⟩
  haveI : IsTrans α (fun a b => key b ≤ key a) :=
    ⟨fun _ _ _ hab hbc => le_trans hbc hab⟩
  exact List.sorted_insertionSort _ l

/-- Stability: elements whose keys are equal appear in the sorted output in
their original order. -/
theorem pySortDesc_filter_key {α κ : Type} [LinearOrder κ] (key : α → κ) (l : List α)
    (k : κ) :
    (pySortDesc key l).filter (fun a => key a = k) = l.filter (fun a => key a = k) := by
  have hpw : (l.filter (fun a => key a = k)).Pairwise (fun a b => key b ≤ key a) := by
    refine List.pairwise_of_forall_mem_list ?_
    intro a ha b hb
    have ha' : key a = k := by simpa using (List.mem_filter.mp ha).2
    have hb' : key b = k := by simpa using (List.mem_filter.mp hb).2
    rw [ha', hb']
  have h1 : l.filter (fun a => key a = k) <+ pySortDesc key l :=
    List.sublist_insertionSort hpw (List.filter_sublist l)
  have h2 : (l.filter (fun a => key a = k)).filter (fun a => key a = k) =
      l.filter (fun a => key a = k) := by
    rw [List.filter_eq_self]
    intro a ha
    exact (List.mem_filter.mp ha).2
  have h3 : l.filter (fun a => key a = k) <+ (pySortDesc key l).filter (fun a => key a = k) :=
    h2 ▸ List.Sublist.filter _ h1
  have h4 : ((pySortDesc key l).filter (fun a => key a = k)).length =
      (l.filter (fun a => key a = k)).length :=
    ((pySortDesc_perm key l).filter _).length_eq
  exact (h3.eq_of_length h4.symm).symm

/-! ### Insertion-ordered maps (Python `dict`)

A Python `dict` built up by key insertion and in-place value update is modelled
as an association list: a new key is appended at the end, updating an existing
key keeps its position — exactly CPython's iteration-order semantics. -/

/-- Lookup in an insertion-ordered map. -/
def lookupA {β : Type} (k : String) : List (String × β) → Option β
  | [] => none
  | (k', v) :: rest => if k' = k then some v else lookupA k rest

/-- `m[k] = v`: update in place if the key exists, else append. -/
def upsertA {β : Type} (k : String) (v : β) : List (String × β) → List (String × β)
  | [] => [(k, v)]
  | (k', v') :: rest => if k' = k then (k', v) :: rest else (k', v') :: upsertA k v rest

/-- `m.setdefault(k, []).append(x)`: append `x` to the list stored at `k`,
creating the entry (at the end) if absent. -/
def appendA {γ : Type} (k : String) (x : γ) :
    List (String × List γ) → List (String × List γ)
  | [] => [(k, [x])]
  | (k', vs) :: rest => if k' = k then (k', vs ++ [x]) :: rest else (k', vs) :: appendA k x rest

/-- The keys of the map, in insertion order (Python `dict.keys()`). -/
def keysA {β : Type} (m : List (String × β)) : List String := m.map Prod.fst

theorem lookupA_upsertA_self {β : Type} (k : String) (v : β) (m : List (String × β)) :
    lookupA k (upsertA k v m) = some v := by
  induction m with
  | nil => simp [upsertA, lookupA]
  | cons e rest ih =>
    obtain ⟨k', v'⟩ := e
    by_cases h : k' = k
    · simp [upsertA, lookupA, h]
    · simp [upsertA, lookupA, h, ih]

theorem lookupA_upsertA_ne {β : Type} {k t : String} (hne : t ≠ k) (v : β)
    (m : List (String × β)) : lookupA t (upsertA k v m) = lookupA t m := by
  induction m with
  | nil =>
    simp only [upsertA, lookupA]
    rw [if_neg fun h => hne h.symm]
  | cons e rest ih =>
    obtain ⟨k', v'⟩ := e
    by_cases h : k' = k
    · subst h
      simp only [upsertA, if_pos rfl, lookupA]
      rw [if_neg fun h => hne h.symm, if_neg fun h => hne h.symm]
    · simp only [upsertA, if_neg h, lookupA]
      by_cases h2 : k' = t
      · rw [if_pos h2, if_pos h2]
      · rw [if_neg h2, if_neg h2, ih]

theorem keysA_cons {β : Type} (k' : String) (v' : β) (rest : List (String × β)) :
    keysA ((k', v') :: rest) = k' :: keysA rest := rfl

theorem keysA_upsertA_mem {β : Type} (k : String) (v : β) :
    ∀ m : List (String × β), k ∈ keysA m → keysA (upsertA k v m) = keysA m := by
  intro m
  induction m with
  | nil => intro hin; simp [keysA] at hin
  | cons e rest ih =>
    intro hin
    obtain ⟨k', v'⟩ := e
    by_cases h : k' = k
    · simp [upsertA, keysA, h]
    · have hin' : k ∈ keysA rest := by
        rw [keysA_cons] at hin
        rcases List.mem_cons.mp hin with h1 | h1
        · exact absurd h1.symm h
        · exact h1
      rw [upsertA, if_neg h, keysA_cons, keysA_cons, ih hin']

theorem keysA_upsertA_not_mem {β : Type} (k : String) (v : β) :
    ∀ m : List (String × β), k ∉ keysA m → keysA (upsertA k v m) = keysA m ++ [k] := by
  intro m
  induction m with
  | nil => intro _; simp [upsertA, keysA]
  | cons e rest ih =>
    intro hnot
    obtain ⟨k', v'⟩ := e
    rw [keysA_cons] at hnot
    have h : k' ≠ k := fun hk => hnot (hk ▸ List.mem_cons_self k' _)
    have h2 : k ∉ keysA rest := fun hk => hnot (List.mem_cons_of_mem _ hk)
    rw [upsertA, if_neg h, keysA_cons, keysA_cons, ih h2, List.cons_append]

theorem lookupA_eq_none_iff {β : Type} (k : String) (m : List (String × β)) :
    lookupA k m = none ↔ k ∉ keysA m := by
  induction m with
  | nil => simp [lookupA, keysA]
  | cons e rest ih =>
    obtain ⟨k', v'⟩ := e
    rw [keysA_cons]
    by_cases h : k' = k
    · subst h
      simp [lookupA]
    · rw [lookupA, if_neg h, ih, List.mem_cons]
      constructor
      · intro hn hc
        rcases hc with hc | hc
        · exact h hc.symm
        · exact hn hc
      · intro hn hc
        exact hn (Or.inr hc)

theorem lookupA_mem {β : Type} {k : String} {v : β} :
    ∀ {m : List (String × β)}, lookupA k m = some v → (k, v) ∈ m := by
  intro m
  induction m with
  | nil => intro h; simp [lookupA] at h
  | cons e rest ih =>
    intro h
    obtain ⟨k', v'⟩ := e
    by_cases hk : k' = k
    · subst hk
      rw [lookupA, if_pos rfl] at h
      cases h
      exact List.mem_cons_self _ _
    · rw [lookupA, if_neg hk] at h
      exact List.mem_cons_of_mem _ (ih h)

theorem mem_lookupA {β : Type} {k : String} {v : β} :
    ∀ {m : List (String × β)}, (keysA m).Nodup → (k, v) ∈ m → lookupA k m = some v := by
  intro m
  induction m with
  | nil => intro _ h; simp at h
  | cons e rest ih =>
    intro hnd h
    obtain ⟨k', v'⟩ := e
    rw [keysA_cons] at hnd
    rcases List.mem_cons.mp h with h1 | h1
    · cases h1
      simp [lookupA]
    · by_cases hk : k' = k
      · exfalso
        subst hk
        have hmem : k' ∈ keysA rest := by
          simp only [keysA, List.mem_map]
          exact ⟨(k', v), h1, rfl⟩
        exact (List.nodup_cons.mp hnd).1 hmem
      · rw [lookupA, if_neg hk]
        exact ih (List.nodup_cons.mp hnd).2 h1

/-! ### Keyword records

A keyword dict as produced by the DataForSEO adapter / Search Atlas parser.
Every field is optional: Python code reads them with `.get(...)` fallbacks. -/

structure KwRec where
  keyword : Option String := none
  rank : Option Int := none
  search_volume : Option Nat := none
  traffic_estimate : Option ℚ := none
  cpc : Option ℚ := none
  competition_level : Option String := none
  deriving DecidableEq

/-- `kw.get("search_volume") or 0`. -/
def volOf (kw : KwRec) : Nat := kw.search_volume.getD 0

/-! ### `_compute_keyword_gap` (backend/workflows/keyword_gap.py) -/

/-- One gap dict as built inside `_compute_keyword_gap`. -/
structure GapRec where
  keyword : String
  search_volume : Nat
  traffic_estimate : ℚ
  top_competitor : String
  rank_at_competitor : Option Int
  deriving DecidableEq

/-- The dict literal stored at `gap[term]`. -/
def gapRecOf (domain : String) (term : String) (kw : KwRec) : GapRec :=
  { keyword := term
    search_volume := volOf kw
    traffic_estimate := kw.traffic_estimate.getD 0
    top_competitor := domain
    rank_at_competitor := kw.rank }

/-- The set comprehension `{kw["keyword"].lower().strip() for kw in
client_keywords if kw.get("keyword")}` (a Python set: only membership is used,
so a list with possible duplicates is an adequate model). -/
def clientKwSet (client : List KwRec) : List String :=
  client.filterMap fun kw =>
    match kw.keyword with
    | none => none
    | some s => if s = "" then none else some (normTerm s)

/-- One iteration of the inner loop of `_compute_keyword_gap`, processing the
pair `(domain, kw)`. -/
def gapStep (cset : List String) (g : List (String × GapRec)) (p : String × KwRec) :
    List (String × GapRec) :=
  let term := normTerm (p.2.keyword.getD "")
  if term = "" ∨ term ∈ cset then g
  else
    match lookupA term g with
    | none => upsertA term (gapRecOf p.1 term p.2) g
    | some existing =>
      if volOf p.2 > existing.search_volume then upsertA term (gapRecOf p.1 term p.2) g
      else g

/-- The `(domain, kw)` pairs scanned by the two nested `for` loops of
`_compute_keyword_gap`, in scan order. -/
def gapPairs (sets : List (String × List KwRec)) : List (String × KwRec) :=
  sets.flatMap fun dk => dk.2.map fun kw => (dk.1, kw)

/-- `_compute_keyword_gap(client_keywords, competitor_keyword_sets)`. -/
def _compute_keyword_gap (client : List KwRec) (sets : List (String × List KwRec)) :
    List GapRec :=
  let cset := clientKwSet client
  let gap := sets.foldl (fun g dk => dk.2.foldl (fun g kw => gapStep cset g (dk.1, kw)) g) []
  pySortDesc (fun r => r.search_volume) (gap.map Prod.snd)

/-! Claim-side characterization of the gap map: the occurrences of a normalized
term among the competitor keyword lists, their maximal volume, and the first
occurrence attaining it. -/

/-- All scanned pairs whose keyword normalizes to `t`, in scan order. -/
def gapOccs (t : String) (pairs : List (String × KwRec)) : List (String × KwRec) :=
  pairs.filter fun p => normTerm (p.2.keyword.getD "") = t

/-- Largest `search_volume or 0` among a list of occurrences. -/
def maxVolOf (occs : List (String × KwRec)) : Nat :=
  occs.foldl (fun acc p => max acc (volOf p.2)) 0

/-- The first occurrence whose volume attains the maximum. -/
def firstMaxOcc (occs : List (String × KwRec)) : Option (String × KwRec) :=
  occs.find? fun p => volOf p.2 = maxVolOf occs

theorem foldl_max_init (v : String × KwRec → Nat) :
    ∀ (l : List (String × KwRec)) (acc : Nat), acc ≤ l.foldl (fun a p => max a (v p)) acc := by
  intro l
  induction l with
  | nil => intro acc; simp
  | cons p rest ih =>
    intro acc
    calc acc ≤ max acc (v p) := le_max_left _ _
    _ ≤ _ := ih _

theorem foldl_max_mem (v : String × KwRec → Nat) :
    ∀ (l : List (String × KwRec)) (acc : Nat) (p : String × KwRec), p ∈ l →
      v p ≤ l.foldl (fun a q => max a (v q)) acc := by
  intro l
  induction l with
  | nil => intro _ _ h; simp at h
  | cons q rest ih =>
    intro acc p hp
    rcases List.mem_cons.mp hp with h | h
    · subst h
      calc v p ≤ max acc (v p) := le_max_right _ _
      _ ≤ _ := foldl_max_init v rest _
    · exact ih _ p h

theorem le_maxVolOf {p : String × KwRec} {l : List (String × KwRec)} (h : p ∈ l) :
    volOf p.2 ≤ maxVolOf l :=
  foldl_max_mem (fun q => volOf q.2) l 0 p h

theorem maxVolOf_append_single (l : List (String × KwRec)) (p : String × KwRec) :
    maxVolOf (l ++ [p]) = max (maxVolOf l) (volOf p.2) := by
  unfold maxVolOf
  rw [List.foldl_append]
  rfl

/-- The invariant maintained by the gap-map loop over a processed prefix of
scanned pairs. -/
def GapInv (cset : List String) (pairs : List (String × KwRec))
    (m : List (String × GapRec)) : Prop :=
  (keysA m).Nodup ∧
  (∀ t ∈ keysA m, t ≠ "" ∧ t ∉ cset ∧ normTerm t = t) ∧
  (∀ t, t ≠ "" → t ∉ cset → (t ∈ keysA m ↔ gapOccs t pairs ≠ [])) ∧
  (∀ t rec, lookupA t m = some rec → ∃ occ, firstMaxOcc (gapOccs t pairs) = some occ ∧
      rec = gapRecOf occ.1 t occ.2)

theorem firstMaxOcc_singleton (p : String × KwRec) : firstMaxOcc [p] = some p := by
  unfold firstMaxOcc maxVolOf
  simp

theorem gapInv_step (cset : List String) (pairs : List (String × KwRec))
    (p : String × KwRec) (m : List (String × GapRec)) (h : GapInv cset pairs m) :
    GapInv cset (pairs ++ [p]) (gapStep cset m p) := by
  obtain ⟨hnd, hvalid, hiff, hlook⟩ := h
  have hocc_eq : ∀ t, t ≠ normTerm (p.2.keyword.getD "") →
      gapOccs t (pairs ++ [p]) = gapOccs t pairs := by
    intro t ht
    unfold gapOccs
    rw [List.filter_append]
    have h1 : List.filter (fun q => decide (normTerm (q.2.keyword.getD "") = t)) [p] = [] := by
      simp only [List.filter_cons, List.filter_nil, decide_eq_true_eq]
      rw [if_neg fun hh => ht hh.symm]
    rw [h1, List.append_nil]
  have hocc_term : gapOccs (normTerm (p.2.keyword.getD "")) (pairs ++ [p]) =
      gapOccs (normTerm (p.2.keyword.getD "")) pairs ++ [p] := by
    unfold gapOccs
    rw [List.filter_append]
    congr 1
    simp
  by_cases hskip : normTerm (p.2.keyword.getD "") = "" ∨ normTerm (p.2.keyword.getD "") ∈ cset
  · have hstep : gapStep cset m p = m := by
      simp only [gapStep]
      rw [if_pos hskip]
    rw [hstep]
    refine ⟨hnd, hvalid, ?_, ?_⟩
    · intro t ht1 ht2
      have hne : t ≠ normTerm (p.2.keyword.getD "") := by
        intro he
        rcases hskip with hs | hs
        · exact ht1 (he.trans hs)
        · exact ht2 (he ▸ hs)
      rw [hocc_eq t hne]
      exact hiff t ht1 ht2
    · intro t rec hr
      have htk : t ∈ keysA m := by
        by_contra hc
        rw [← lookupA_eq_none_iff] at hc
        rw [hc] at hr
        cases hr
      obtain ⟨ht1, ht2, _⟩ := hvalid t htk
      have hne : t ≠ normTerm (p.2.keyword.getD "") := by
        intro he
        rcases hskip with hs | hs
        · exact ht1 (he.trans hs)
        · exact ht2 (he ▸ hs)
      rw [hocc_eq t hne]
      exact hlook t rec hr
  · push_neg at hskip
    obtain ⟨hne_empty, hnotin⟩ := hskip
    have hidem : normTerm (normTerm (p.2.keyword.getD "")) = normTerm (p.2.keyword.getD "") :=
      normTerm_idem _
    rcases hl : lookupA (normTerm (p.2.keyword.getD "")) m with _ | ex
    · -- the term is new: the dict entry is created from this occurrence
      have hstep : gapStep cset m p =
          upsertA (normTerm (p.2.keyword.getD ""))
            (gapRecOf p.1 (normTerm (p.2.keyword.getD "")) p.2) m := by
        simp only [gapStep]
        rw [if_neg (by push_neg; exact ⟨hne_empty, hnotin⟩), hl]
      have hnotkey : normTerm (p.2.keyword.getD "") ∉ keysA m :=
        (lookupA_eq_none_iff _ m).mp hl
      have hkeys : keysA (gapStep cset m p) = keysA m ++ [normTerm (p.2.keyword.getD "")] := by
        rw [hstep]
        exact keysA_upsertA_not_mem _ _ m hnotkey
      have hocc_nil : gapOccs (normTerm (p.2.keyword.getD "")) pairs = [] := by
        by_contra hc
        exact hnotkey ((hiff _ hne_empty hnotin).mpr hc)
      refine ⟨?_, ?_, ?_, ?_⟩
      · rw [hkeys]
        exact List.Nodup.append hnd (List.nodup_singleton _)
          (by intro a ha hb; simp at hb; subst hb; exact hnotkey ha)
      · intro t htk
        rw [hkeys] at htk
        rcases List.mem_append.mp htk with h1 | h1
        · exact hvalid t h1
        · simp at h1
          subst h1
          exact ⟨hne_empty, hnotin, hidem⟩
      · intro t ht1 ht2
        by_cases he : t = normTerm (p.2.keyword.getD "")
        · subst he
          rw [hkeys, hocc_term, hocc_nil]
          simp
        · rw [hkeys, hocc_eq t he]
          constructor
          · intro hmem
            rcases List.mem_append.mp hmem with h1 | h1
            · exact (hiff t ht1 ht2).mp h1
            · simp at h1
              exact absurd h1 he
          · intro hx
            exact List.mem_append.mpr (Or.inl ((hiff t ht1 ht2).mpr hx))
      · intro t rec hr
        by_cases he : t = normTerm (p.2.keyword.getD "")
        · subst he
          rw [hstep, lookupA_upsertA_self] at hr
          cases hr
          refine ⟨p, ?_, rfl⟩
          rw [hocc_term, hocc_nil, List.nil_append]
          exact firstMaxOcc_singleton p
        · rw [hstep, lookupA_upsertA_ne he] at hr
          rw [hocc_eq t he]
          exact hlook t rec hr
    · -- the term is present: keep the higher-volume occurrence
      obtain ⟨occ₀, hfind₀, hex⟩ := hlook _ ex hl
      have hmem₀ : occ₀ ∈ gapOccs (normTerm (p.2.keyword.getD "")) pairs :=
        List.mem_of_find?_eq_some hfind₀
      have hvol₀ : volOf occ₀.2 = maxVolOf (gapOccs (normTerm (p.2.keyword.getD "")) pairs) := by
        have := List.find?_some hfind₀
        simpa using this
      have hexvol : ex.search_volume =
          maxVolOf (gapOccs (normTerm (p.2.keyword.getD "")) pairs) := by
        rw [hex]
        exact hvol₀
      have hkey : normTerm (p.2.keyword.getD "") ∈ keysA m := by
        by_contra hc
        rw [← lookupA_eq_none_iff] at hc
        rw [hc] at hl
        cases hl
      by_cases hv : volOf p.2 > ex.search_volume
      · have hstep : gapStep cset m p =
            upsertA (normTerm (p.2.keyword.getD ""))
              (gapRecOf p.1 (normTerm (p.2.keyword.getD "")) p.2) m := by
          simp only [gapStep]
          rw [if_neg (by push_neg; exact ⟨hne_empty, hnotin⟩), hl]
          exact if_pos hv
        have hkeys : keysA (gapStep cset m p) = keysA m := by
          rw [hstep]
          exact keysA_upsertA_mem _ _ m hkey
        have hmaxnew : maxVolOf (gapOccs (normTerm (p.2.keyword.getD "")) (pairs ++ [p])) =
            volOf p.2 := by
          rw [hocc_term, maxVolOf_append_single, ← hexvol]
          exact Nat.max_eq_right (le_of_lt hv)
        refine ⟨hkeys ▸ hnd, ?_, ?_, ?_⟩
        · intro t htk
          exact hvalid t (hkeys ▸ htk)
        · intro t ht1 ht2
          rw [hkeys]
          by_cases he : t = normTerm (p.2.keyword.getD "")
          · subst he
            rw [hocc_term]
            simp only [iff_true_intro hkey, true_iff]
            intro hc
            exact absurd hc (by simp)
          · rw [hocc_eq t he]
            exact hiff t ht1 ht2
        · intro t rec hr
          by_cases he : t = normTerm (p.2.keyword.getD "")
          · subst he
            rw [hstep, lookupA_upsertA_self] at hr
            cases hr
            refine ⟨p, ?_, rfl⟩
            unfold firstMaxOcc
            rw [hmaxnew, hocc_term, List.find?_append]
            have h1 : List.find? (fun q => decide (volOf q.2 = volOf p.2))
                (gapOccs (normTerm (p.2.keyword.getD "")) pairs) = none := by
              rw [List.find?_eq_none]
              intro q hq
              have := le_maxVolOf hq
              rw [← hexvol] at this
              simp only [decide_eq_true_eq]
              omega
            rw [h1]
            simp
          · rw [hstep, lookupA_upsertA_ne he] at hr
            rw [hocc_eq t he]
            exact hlook t rec hr
      · have hstep : gapStep cset m p = m := by
          simp only [gapStep]
          rw [if_neg (by push_neg; exact ⟨hne_empty, hnotin⟩), hl]
          exact if_neg hv
        rw [hstep]
        have hmaxnew : maxVolOf (gapOccs (normTerm (p.2.keyword.getD "")) (pairs ++ [p])) =
            maxVolOf (gapOccs (normTerm (p.2.keyword.getD "")) pairs) := by
          rw [hocc_term, maxVolOf_append_single, ← hexvol]
          exact Nat.max_eq_left (by omega)
        refine ⟨hnd, hvalid, ?_, ?_⟩
        · intro t ht1 ht2
          by_cases he : t = normTerm (p.2.keyword.getD "")
          · subst he
            rw [hocc_term]
            simp only [iff_true_intro hkey, true_iff]
            intro hc
            exact absurd hc (by simp)
          · rw [hocc_eq t he]
            exact hiff t ht1 ht2
        · intro t rec hr
          by_cases he : t = normTerm (p.2.keyword.getD "")
          · subst he
            rw [hl] at hr
            cases hr
            refine ⟨occ₀, ?_, hex⟩
            unfold firstMaxOcc
            rw [hmaxnew, hocc_term, List.find?_append]
            unfold firstMaxOcc at hfind₀
            rw [hfind₀]
            rfl
          · rw [hocc_eq t he]
            exact hlook t rec hr

theorem gapInv_foldl (cset : List String) (pairs : List (String × KwRec)) :
    GapInv cset pairs (pairs.foldl (gapStep cset) []) := by
  induction pairs using List.reverseRecOn with
  | nil =>
    refine ⟨List.nodup_nil, ?_, ?_, ?_⟩
    · intro t ht; simp [keysA] at ht
    · intro t _ _
      simp [keysA, gapOccs]
    · intro t rec hr
      simp [lookupA] at hr
  | append_singleton ps p ih =>
    rw [List.foldl_append]
    exact gapInv_step cset ps p _ ih

theorem gap_fold_flatten (cset : List String) :
    ∀ (sets : List (String × List KwRec)) (init : List (String × GapRec)),
      sets.foldl (fun g dk => dk.2.foldl (fun g kw => gapStep cset g (dk.1, kw)) g) init =
        (gapPairs sets).foldl (gapStep cset) init := by
  intro sets
  induction sets with
  | nil => intro init; rfl
  | cons dk rest ih =>
    intro init
    rw [List.foldl_cons, ih]
    unfold gapPairs
    rw [List.flatMap_cons, List.foldl_append, List.foldl_map]

theorem compute_keyword_gap_eq (client : List KwRec) (sets : List (String × List KwRec)) :
    _compute_keyword_gap client sets =
      pySortDesc (fun r => r.search_volume)
        (((gapPairs sets).foldl (gapStep (clientKwSet client)) []).map Prod.snd) := by
  simp only [_compute_keyword_gap]
  rw [gap_fold_flatten]

theorem entry_keyword_eq_key (client : List KwRec) (sets : List (String × List KwRec)) :
    ∀ e ∈ (gapPairs sets).foldl (gapStep (clientKwSet client)) [], e.2.keyword = e.1 := by
  intro e he
  obtain ⟨hnd, _, _, hlook⟩ := gapInv_foldl (clientKwSet client) (gapPairs sets)
  obtain ⟨occ, _, hrec⟩ := hlook e.1 e.2 (mem_lookupA hnd he)
  rw [hrec]
  rfl

/-- C1: every gap record produced by the keyword-gap computation has a term
that, after lowercasing and trimming, is not a member of the subject domain's
own keyword-term set (itself built by lowercasing and trimming each of the
subject's keywords). -/
theorem C1_gap_term_not_in_client_set (client : List KwRec)
    (sets : List (String × List KwRec)) :
    ∀ rec ∈ _compute_keyword_gap client sets, normTerm rec.keyword ∉ clientKwSet client := by
  intro rec hrec
  rw [compute_keyword_gap_eq] at hrec
  have hperm := pySortDesc_perm (fun r : GapRec => r.search_volume)
    (((gapPairs sets).foldl (gapStep (clientKwSet client)) []).map Prod.snd)
  have hmem : rec ∈ ((gapPairs sets).foldl (gapStep (clientKwSet client)) []).map Prod.snd :=
    hperm.mem_iff.mp hrec
  obtain ⟨e, he, hesnd⟩ := List.mem_map.mp hmem
  obtain ⟨hnd, hvalid, _, hlook⟩ := gapInv_foldl (clientKwSet client) (gapPairs sets)
  have hkw : rec.keyword = e.1 := by
    rw [← hesnd]
    exact entry_keyword_eq_key client sets e he
  have hkey : e.1 ∈ keysA ((gapPairs sets).foldl (gapStep (clientKwSet client)) []) :=
    List.mem_map.mpr ⟨e, he, rfl⟩
  obtain ⟨_, hnotin, hidem⟩ := hvalid e.1 hkey
  rw [hkw, hidem]
  exact hnotin

/-- C2: the keyword-gap output contains at most one record per normalized
term; a term with at least one competitor occurrence (outside the client set)
yields exactly one record carrying the volume of its highest-volume occurrence
and the source domain of the first occurrence attaining that volume (so on
equal volumes the first-seen occurrence wins); and the output is sorted in
descending order of `search_volume`. -/
theorem C2_gap_dedup_highest_volume_sorted (client : List KwRec)
    (sets : List (String × List KwRec)) :
    ((_compute_keyword_gap client sets).Sorted
        fun a b => b.search_volume ≤ a.search_volume) ∧
    ((_compute_keyword_gap client sets).map GapRec.keyword).Nodup ∧
    (∀ t, t ≠ "" → t ∉ clientKwSet client → gapOccs t (gapPairs sets) ≠ [] →
      ∃ rec ∈ _compute_keyword_gap client sets, rec.keyword = t ∧
        rec.search_volume = maxVolOf (gapOccs t (gapPairs sets)) ∧
        ∃ occ, firstMaxOcc (gapOccs t (gapPairs sets)) = some occ ∧
          rec.top_competitor = occ.1 ∧ rec.search_volume = volOf occ.2) := by
  obtain ⟨hnd, hvalid, hiff, hlook⟩ := gapInv_foldl (clientKwSet client) (gapPairs sets)
  have hperm := pySortDesc_perm (fun r : GapRec => r.search_volume)
    (((gapPairs sets).foldl (gapStep (clientKwSet client)) []).map Prod.snd)
  refine ⟨?_, ?_, ?_⟩
  · rw [compute_keyword_gap_eq]
    exact pySortDesc_sorted _ _
  · rw [compute_keyword_gap_eq]
    have h1 : (((gapPairs sets).foldl (gapStep (clientKwSet client)) []).map
        Prod.snd).map GapRec.keyword =
        keysA ((gapPairs sets).foldl (gapStep (clientKwSet client)) []) := by
      rw [List.map_map]
      exact List.map_congr_left fun e he => entry_keyword_eq_key client sets e he
    have h2 := hperm.map GapRec.keyword
    rw [h1] at h2
    exact h2.nodup_iff.mpr hnd
  · intro t ht1 ht2 hocc
    have hkey : t ∈ keysA ((gapPairs sets).foldl (gapStep (clientKwSet client)) []) :=
      (hiff t ht1 ht2).mpr hocc
    rcases hlv : lookupA t ((gapPairs sets).foldl (gapStep (clientKwSet client)) []) with _ | v
    · exact absurd ((lookupA_eq_none_iff _ _).mp hlv) (not_not_intro hkey)
    · obtain ⟨occ, hfind, hrec⟩ := hlook t v hlv
      refine ⟨v, ?_, ?_, ?_, occ, hfind, ?_, ?_⟩
      · rw [compute_keyword_gap_eq]
        refine hperm.mem_iff.mpr (List.mem_map.mpr ⟨(t, v), lookupA_mem hlv, rfl⟩)
      · rw [hrec]; rfl
      · have hp := List.find?_some hfind
        simp only [decide_eq_true_eq] at hp
        rw [hrec]
        exact hp
      · rw [hrec]; rfl
      · rw [hrec]; rfl

/-- Concrete instantiation of C1: with client keyword "Plumber Gilbert" and one
competitor ranking for "Drain Cleaning ", the produced gap record's normalized
term is outside the client keyword set. -/
theorem C1_witness :
    (({ keyword := "drain cleaning", search_volume := 50, traffic_estimate := 0,
        top_competitor := "acme.com", rank_at_competitor := some 3 } : GapRec) ∈
      _compute_keyword_gap [{ keyword := some "Plumber Gilbert" }]
        [("acme.com", [{ keyword := some "Drain Cleaning ", search_volume := some 50,
                         rank := some 3 }])]) ∧
    normTerm "drain cleaning" ∉
      clientKwSet [{ keyword := some "Plumber Gilbert" }] :=
  ⟨by decide,
   C1_gap_term_not_in_client_set
     [{ keyword := some "Plumber Gilbert" }]
     [("acme.com", [{ keyword := some "Drain Cleaning ", search_volume := some 50,
                      rank := some 3 }])]
     { keyword := "drain cleaning", search_volume := 50, traffic_estimate := 0,
       top_competitor := "acme.com", rank_at_competitor := some 3 }
     (by decide)⟩

/-- Concrete instantiation of C2: two competitors rank for the same term with
volumes 50 and 200; the gap output carries exactly the 200-volume occurrence. -/
theorem C2_witness :
    ∃ rec ∈ _compute_keyword_gap []
        [("lowvol.com", [{ keyword := some "drain cleaning gilbert", search_volume := some 50 }]),
         ("highvol.com", [{ keyword := some "drain cleaning gilbert", search_volume := some 200 }])],
      rec.keyword = "drain cleaning gilbert" ∧
      rec.search_volume = maxVolOf (gapOccs "drain cleaning gilbert" (gapPairs
        [("lowvol.com", [{ keyword := some "drain cleaning gilbert", search_volume := some 50 }]),
         ("highvol.com", [{ keyword := some "drain cleaning gilbert", search_volume := some 200 }])])) ∧
      ∃ occ, firstMaxOcc (gapOccs "drain cleaning gilbert" (gapPairs
          [("lowvol.com", [{ keyword := some "drain cleaning gilbert", search_volume := some 50 }]),
           ("highvol.com", [{ keyword := some "drain cleaning gilbert", search_volume := some 200 }])])) =
          some occ ∧
        rec.top_competitor = occ.1 ∧ rec.search_volume = volOf occ.2 :=
  (C2_gap_dedup_highest_volume_sorted _ _).2.2 "drain cleaning gilbert"
    (by decide) (by decide) (by decide)

/-! ### Pillar classification (`backend/workflows/prospect_audit.py`) -/

/-- `_detect_service_type(service)`: broad service category from free text. -/
def _detect_service_type (service : String) : String :=
  let s := pyLower service
  if ["plumb", "plumber", "drain", "sewer", "water heater"].any (fun k => strContains s k) then
    "plumbing"
  else if ["electric", "electrician", "wiring", "panel"].any (fun k => strContains s k) then
    "electrician"
  else if ["hvac", "ac repair", "air condition", "heating", "cooling", "furnace",
      "heat pump"].any (fun k => strContains s k) then
    "hvac"
  else if ["roof", "roofer", "shingle", "gutter"].any (fun k => strContains s k) then
    "roofing"
  else if ["detail", "detailing", "car wash", "auto detail"].any (fun k => strContains s k) then
    "auto_detailing"
  else if ["concrete", "cement", "pav"].any (fun k => strContains s k) then
    "concrete"
  else if ["landscape", "lawn", "grass", "tree service", "tree trim"].any
      (fun k => strContains s k) then
    "landscaping"
  else if ["paint", "painting", "painter"].any (fun k => strContains s k) then
    "painting"
  else if ["clean", "cleaning", "maid", "janitorial", "pressure wash"].any
      (fun k => strContains s k) then
    "cleaning"
  else if ["pest", "exterminator", "rodent", "termite", "bug"].any
      (fun k => strContains s k) then
    "pest_control"
  else "general"

/-- `_SERVICE_PILLAR_RULES`: ordered `(pillar name, trigger substrings)` rules
per service category; an empty trigger list is the catch-all bucket. -/
def _SERVICE_PILLAR_RULES : List (String × List (String × List String)) :=
  [("plumbing",
    [("Emergency Plumbing",  ["emergency", "urgent", "24 hour", "same day", "24/7"]),
     ("Water Heater",        ["water heater", "hot water", "tankless"]),
     ("Drain & Sewer",       ["drain", "sewer", "clog", "rooter", "sewer line"]),
     ("Water Treatment",     ["water softener", "softener", "water treatment",
                              "reverse osmosis", "ro system", "filtration",
                              "conditioning", "water purif"]),
     ("Leak & Pipe Repair",  ["leak", "pipe", "burst", "repiping"]),
     ("General Plumbing",    [])]),
   ("electrician",
    [("Emergency",           ["emergency", "urgent", "24 hour", "same day"]),
     ("Panel & Service",     ["panel", "breaker", "electrical box",
                              "service upgrade", "200 amp", "100 amp"]),
     ("EV Charging",         ["ev charger", "electric vehicle", "tesla",
                              "charger install", "charging station"]),
     ("Lighting",            ["lighting", "light fixture", "led", "dimmer", "recessed"]),
     ("Wiring & Outlets",    ["wiring", "rewire", "outlet", "switch", "gfci"]),
     ("General Electrical",  [])]),
   ("hvac",
    [("Emergency HVAC",      ["emergency", "urgent", "24 hour", "same day"]),
     ("AC Repair",           ["ac repair", "air conditioner repair", "ac service",
                              "cooling repair", "ac not cooling"]),
     ("Heating",             ["heating", "furnace", "heat pump", "boiler", "heater"]),
     ("Installation",        ["installation", "install", "new unit",
                              "replacement", "new ac", "new hvac"]),
     ("Air Quality",         ["air quality", "ductwork", "filter",
                              "purifier", "humidity", "duct cleaning"]),
     ("General HVAC",        [])]),
   ("roofing",
    [("Emergency / Storm",   ["emergency", "storm damage", "urgent",
                              "roof leak", "hail damage"]),
     ("Roof Replacement",    ["replacement", "new roof", "reroof"]),
     ("Roof Repair",         ["repair", "fix", "patch", "leak repair"]),
     ("Gutters",             ["gutter", "downspout", "fascia", "soffit"]),
     ("Inspection",          ["inspection", "estimate", "assessment"]),
     ("General Roofing",     [])]),
   ("auto_detailing",
    [("Emergency / Urgent",  ["emergency", "urgent", "24 hour", "same day", "24/7"]),
     ("Premium / Specialty", ["ceramic", "paint correction", "ppf",
                              "protection film", "restoration",
                              "premium", "packages", "full detail"]),
     ("Interior",            ["interior", "inside", "upholstery", "carpet", "steam"]),
     ("Exterior / Wash",     ["exterior", "outside", "wash", "wax", "polish"]),
     ("Mobile",              ["mobile", "come to", "at home", "your home", "on-site"]),
     ("Core Detailing",      [])]),
   ("concrete",
    [("Driveway",            ["driveway"]),
     ("Patio / Outdoor",     ["patio", "walkway", "pathway", "outdoor", "sidewalk"]),
     ("Decorative",          ["stamped", "decorative", "stained",
                              "exposed aggregate", "colored"]),
     ("Repair",              ["repair", "crack", "fix", "resurface", "patch"]),
     ("Foundation",          ["foundation", "slab", "footing", "basement"]),
     ("General Concrete",    [])]),
   ("landscaping",
    [("Lawn Care",           ["lawn", "mowing", "grass", "turf", "sod"]),
     ("Tree Services",       ["tree trim", "tree removal", "tree service",
                              "stump", "arborist"]),
     ("Irrigation",          ["irrigation", "sprinkler", "drip system"]),
     ("Hardscape",           ["patio", "retaining wall", "walkway",
                              "pavers", "fire pit"]),
     ("Design & Install",    ["design", "landscape design", "renovation",
                              "makeover", "install"]),
     ("General Landscaping", [])]),
   ("general",
    [("Emergency",           ["emergency", "urgent", "24 hour", "same day"]),
     ("Premium Service",     ["premium", "best", "top rated", "professional"]),
     ("Local Demand",        [])])]

/-- `_SERVICE_PILLAR_RULES.get(service_type, _SERVICE_PILLAR_RULES["general"])`. -/
def pillarRulesFor (service_type : String) : List (String × List String) :=
  (lookupA service_type _SERVICE_PILLAR_RULES).getD
    ((lookupA "general" _SERVICE_PILLAR_RULES).getD [])

/-- One iteration of the bucket-assignment loop of `_build_keyword_pillar_table`:
the keyword goes to the first rule with a nonempty trigger list containing a
substring of the lowercased keyword, otherwise to the first empty-trigger
(catch-all) rule. -/
def pillarStep (rules : List (String × List String)) (buckets : List (String × List KwRec))
    (kw_data : KwRec) : List (String × List KwRec) :=
  let kw := pyLower (kw_data.keyword.getD "")
  match rules.find? (fun r => !r.2.isEmpty && r.2.any (fun k => strContains kw k)) with
  | some r => appendA r.1 kw_data buckets
  | none =>
    match rules.find? (fun r => r.2.isEmpty) with
    | some r => appendA r.1 kw_data buckets
    | none => buckets

/-- The bucket-construction phase of `_build_keyword_pillar_table(volumes,
service)` (the table rendering that follows is pure formatting). -/
def classifyPillars (volumes : List KwRec) (service : String) :
    List (String × List KwRec) :=
  volumes.foldl (pillarStep (pillarRulesFor (_detect_service_type service))) []

/-- Claim-side assignment function, following the spec: a keyword belongs to
the first pillar whose trigger-substring list contains a substring of the
lowercased keyword; a keyword matching no trigger belongs to the category's
empty-trigger catch-all pillar. -/
def specAssignPillar (rules : List (String × List String)) (kwRaw : String) : Option String :=
  match rules.find? (fun r => r.2.any (fun k => strContains (pyLower kwRaw) k)) with
  | some r => some r.1
  | none => (rules.find? (fun r => r.2.isEmpty)).map Prod.fst

/-- Total number of bucket members. -/
def totalMembers (buckets : List (String × List KwRec)) : Nat :=
  (buckets.map (fun b => b.2.length)).sum

theorem keysA_appendA_mem {γ : Type} (k : String) (x : γ) :
    ∀ m : List (String × List γ), k ∈ keysA m → keysA (appendA k x m) = keysA m := by
  intro m
  induction m with
  | nil => intro hin; simp [keysA] at hin
  | cons e rest ih =>
    intro hin
    obtain ⟨k', vs⟩ := e
    by_cases h : k' = k
    · simp [appendA, keysA, h]
    · have hin' : k ∈ keysA rest := by
        rw [keysA_cons] at hin
        rcases List.mem_cons.mp hin with h1 | h1
        · exact absurd h1.symm h
        · exact h1
      rw [appendA, if_neg h, keysA_cons, keysA_cons, ih hin']

theorem keysA_appendA_not_mem {γ : Type} (k : String) (x : γ) :
    ∀ m : List (String × List γ), k ∉ keysA m → keysA (appendA k x m) = keysA m ++ [k] := by
  intro m
  induction m with
  | nil => intro _; simp [appendA, keysA]
  | cons e rest ih =>
    intro hnot
    obtain ⟨k', vs⟩ := e
    rw [keysA_cons] at hnot
    have h : k' ≠ k := fun hk => hnot (hk ▸ List.mem_cons_self k' _)
    have h2 : k ∉ keysA rest := fun hk => hnot (List.mem_cons_of_mem _ hk)
    rw [appendA, if_neg h, keysA_cons, keysA_cons, ih h2, List.cons_append]

theorem totalMembers_appendA (k : String) (x : KwRec) :
    ∀ m : List (String × List KwRec), totalMembers (appendA k x m) = totalMembers m + 1 := by
  intro m
  induction m with
  | nil => simp [appendA, totalMembers]
  | cons e rest ih =>
    obtain ⟨k', vs⟩ := e
    by_cases h : k' = k
    · simp [appendA, h, totalMembers]
      omega
    · simp [appendA, h, totalMembers] at ih ⊢
      omega

theorem lookupA_appendA_elim {γ : Type} {k p : String} {x : γ} {members : List γ} :
    ∀ {m : List (String × List γ)}, lookupA p (appendA k x m) = some members →
      ∀ y ∈ members, (p = k ∧ y = x) ∨ ∃ old, lookupA p m = some old ∧ y ∈ old := by
  intro m
  induction m with
  | nil =>
    intro hl y hy
    by_cases h : k = p
    · subst h
      rw [appendA, lookupA, if_pos rfl] at hl
      cases hl
      simp at hy
      exact Or.inl ⟨rfl, hy⟩
    · rw [appendA, lookupA, if_neg h] at hl
      cases hl
  | cons e rest ih =>
    intro hl y hy
    obtain ⟨k', vs⟩ := e
    by_cases h : k' = k
    · subst h
      rw [appendA, if_pos rfl, lookupA] at hl
      by_cases h2 : k' = p
      · rw [if_pos h2] at hl
        cases hl
        rcases List.mem_append.mp hy with h3 | h3
        · exact Or.inr ⟨vs, by rw [lookupA, if_pos h2], h3⟩
        · simp at h3
          exact Or.inl ⟨h2.symm, h3⟩
      · rw [if_neg h2] at hl
        exact Or.inr ⟨members, by rw [lookupA, if_neg h2]; exact hl, hy⟩
    · rw [appendA, if_neg h, lookupA] at hl
      by_cases h2 : k' = p
      · rw [if_pos h2] at hl
        cases hl
        exact Or.inr ⟨members, by rw [lookupA, if_pos h2], hy⟩
      · rw [if_neg h2] at hl
        rcases ih hl y hy with h3 | ⟨old, h4, h5⟩
        · exact Or.inl h3
        · exact Or.inr ⟨old, by rw [lookupA, if_neg h2]; exact h4, h5⟩

theorem pillar_pred_eq (kw : String) (rules : List (String × List String)) :
    rules.find? (fun r => !r.2.isEmpty && r.2.any (fun k => strContains kw k)) =
      rules.find? (fun r => r.2.any (fun k => strContains kw k)) := by
  congr 1
  funext r
  rcases r with ⟨name, trigs⟩
  cases trigs <;> simp

set_option maxHeartbeats 2000000 in
theorem detect_service_type_mem (service : String) :
    _detect_service_type service ∈ ["plumbing", "electrician", "hvac", "roofing",
      "auto_detailing", "concrete", "landscaping", "painting", "cleaning",
      "pest_control", "general"] := by
  simp only [_detect_service_type]
  split_ifs <;> decide

theorem catchall_isSome (service : String) :
    ((pillarRulesFor (_detect_service_type service)).find? (fun r => r.2.isEmpty)).isSome := by
  have hm := detect_service_type_mem service
  simp only [List.mem_cons, List.not_mem_nil, or_false] at hm
  rcases hm with h | h | h | h | h | h | h | h | h | h | h <;> rw [h] <;> decide

/-- The invariant of the bucket loop: bucket names are distinct and every
member of a bucket is spec-assigned to exactly that bucket. -/
def PillarInv (rules : List (String × List String)) (m : List (String × List KwRec)) : Prop :=
  (keysA m).Nodup ∧
  ∀ p members, lookupA p m = some members →
    ∀ kd ∈ members, specAssignPillar rules (kd.keyword.getD "") = some p

theorem pillarInv_step (rules : List (String × List String))
    (hca : (rules.find? (fun r => r.2.isEmpty)).isSome)
    (m : List (String × List KwRec)) (kd : KwRec) (h : PillarInv rules m) :
    PillarInv rules (pillarStep rules m kd) ∧
      totalMembers (pillarStep rules m kd) = totalMembers m + 1 := by
  obtain ⟨hnd, hmem⟩ := h
  have key : ∃ tgt, pillarStep rules m kd = appendA tgt kd m ∧
      specAssignPillar rules (kd.keyword.getD "") = some tgt := by
    simp only [pillarStep, specAssignPillar]
    rw [pillar_pred_eq]
    rcases hf : rules.find?
        (fun r => r.2.any (fun k => strContains (pyLower (kd.keyword.getD "")) k)) with _ | r
    · rw [hf]
      rcases hc : rules.find? (fun r => r.2.isEmpty) with _ | r
      · rw [hc] at hca
        simp at hca
      · rw [hc]
        exact ⟨r.1, rfl, rfl⟩
    · rw [hf]
      exact ⟨r.1, rfl, rfl⟩
  obtain ⟨tgt, hstep, hassign⟩ := key
  refine ⟨⟨?_, ?_⟩, ?_⟩
  · rw [hstep]
    by_cases htgt : tgt ∈ keysA m
    · rw [keysA_appendA_mem _ _ _ htgt]
      exact hnd
    · rw [keysA_appendA_not_mem _ _ _ htgt]
      exact List.Nodup.append hnd (List.nodup_singleton _)
        (by intro a ha hb; simp at hb; subst hb; exact htgt ha)
  · intro p members hl y hy
    rw [hstep] at hl
    rcases lookupA_appendA_elim hl y hy with ⟨hp, hyx⟩ | ⟨old, hold, hyold⟩
    · rw [hyx, hp]
      exact hassign
    · exact hmem p old hold y hyold
  · rw [hstep]
    exact totalMembers_appendA _ _ m

theorem pillarInv_foldl (rules : List (String × List String))
    (hca : (rules.find? (fun r => r.2.isEmpty)).isSome) :
    ∀ (volumes : List KwRec) (m : List (String × List KwRec)), PillarInv rules m →
      PillarInv rules (volumes.foldl (pillarStep rules) m) ∧
      totalMembers (volumes.foldl (pillarStep rules) m) = totalMembers m + volumes.length := by
  intro volumes
  induction volumes with
  | nil => intro m h; exact ⟨h, by simp⟩
  | cons kd rest ih =>
    intro m h
    obtain ⟨h1, h2⟩ := pillarInv_step rules hca m kd h
    obtain ⟨h3, h4⟩ := ih _ h1
    refine ⟨by rw [List.foldl_cons]; exact h3, ?_⟩
    rw [List.foldl_cons, h4, h2, List.length_cons]
    omega

/-- C3: for every input keyword-volume list and service category, the pillar
classification assigns each keyword to exactly one bucket — every bucket member
is spec-assigned (first matching trigger rule, else the empty-trigger
catch-all) to exactly its bucket, bucket names are distinct, and the sum of
bucket sizes equals the input length, so no keyword is dropped. -/
theorem C3_pillar_total_coverage (volumes : List KwRec) (service : String)
    (hne : volumes ≠ []) :
    (keysA (classifyPillars volumes service)).Nodup ∧
    totalMembers (classifyPillars volumes service) = volumes.length ∧
    (∀ p members, lookupA p (classifyPillars volumes service) = some members →
      ∀ kd ∈ members,
        specAssignPillar (pillarRulesFor (_detect_service_type service))
          (kd.keyword.getD "") = some p) := by
  have hca := catchall_isSome service
  have hbase : PillarInv (pillarRulesFor (_detect_service_type service)) [] := by
    constructor
    · simp [keysA]
    · intro p members hl
      simp [lookupA] at hl
  obtain ⟨⟨hnd, hmem⟩, htot⟩ := pillarInv_foldl _ hca volumes [] hbase
  unfold classifyPillars
  refine ⟨hnd, ?_, hmem⟩
  rw [htot]
  simp [totalMembers]

/-- Concrete instantiation of C3: two plumbing-market keywords — one hits the
"Water Heater" trigger, the other matches no plumbing trigger and falls into
the catch-all — and the bucket sizes sum to the input count. -/
theorem C3_witness :
    (keysA (classifyPillars
      [{ keyword := some "water heater repair gilbert", search_volume := some 40 },
       { keyword := some "panel upgrade gilbert", search_volume := some 25 }] "plumbing")).Nodup ∧
    totalMembers (classifyPillars
      [{ keyword := some "water heater repair gilbert", search_volume := some 40 },
       { keyword := some "panel upgrade gilbert", search_volume := some 25 }] "plumbing") =
      ([{ keyword := some "water heater repair gilbert", search_volume := some 40 },
        { keyword := some "panel upgrade gilbert", search_volume := some 25 }] : List KwRec).length ∧
    (∀ p members, lookupA p (classifyPillars
        [{ keyword := some "water heater repair gilbert", search_volume := some 40 },
         { keyword := some "panel upgrade gilbert", search_volume := some 25 }] "plumbing") =
          some members →
      ∀ kd ∈ members,
        specAssignPillar (pillarRulesFor (_detect_service_type "plumbing"))
          (kd.keyword.getD "") = some p) :=
  C3_pillar_total_coverage
    [{ keyword := some "water heater repair gilbert", search_volume := some 40 },
     { keyword := some "panel upgrade gilbert", search_volume := some 25 }]
    "plumbing" (by decide)

/-! ### CTR traffic-estimate backfill (`_fill_traffic_estimates`)

`est_traffic = round(vol * ctr)` is evaluated by CPython in binary64 floating
point: the int `vol` is converted to a float (exact below `2^53`, else
correctly rounded), each CTR literal denotes the binary64 value nearest its
decimal spelling, the product is one correctly rounded multiplication, and
`round` returns the nearest integer with ties to even.  The model embeds this
arithmetic exactly: a nonnegative float is a dyadic rational `n / 2^s`, every
operation rounds its exact result to 53 significant bits with ties to even,
and `round` is nearest-even on the exact dyadic value.  (Overflow and
subnormals cannot occur in the pipeline's value range.) -/

/-- Bit length (`int.bit_length()`): 0 for 0, else the `b` with
`2^(b-1) ≤ n < 2^b`.  Fuel-based so the kernel can evaluate it. -/
def bitsAux : ℕ → ℕ → ℕ
  | 0, _ => 0
  | _ + 1, 0 => 0
  | f + 1, n + 1 => 1 + bitsAux f ((n + 1) / 2)

def bits (n : ℕ) : ℕ := bitsAux n n

/-- Round `a / q` to the nearest natural number, ties to even — the rounding
rule of IEEE-754 operations and of Python `round`. -/
def rnRat (a q : ℕ) : ℕ :=
  let m := a / q
  let r := a % q
  if 2 * r > q then m + 1 else if 2 * r < q then m
  else if m % 2 = 0 then m else m + 1

/-- A nonnegative binary64 value, exactly: the dyadic rational `n / 2^s`. -/
structure Dy where
  n : ℕ
  s : ℤ
deriving DecidableEq

/-- The exact rational value of a dyadic. -/
def dyVal (a : Dy) : ℚ := (a.n : ℚ) * (2 : ℚ) ^ (-a.s)

/-- Exact product of two dyadics (the value IEEE multiplication then rounds). -/
def dyMul (a b : Dy) : Dy := ⟨a.n * b.n, a.s + b.s⟩

/-- Binary64 rounding of an exact operation result: round the significand to
53 bits, nearest ties-to-even. -/
def flDy (a : Dy) : Dy :=
  if bits a.n ≤ 53 then a
  else ⟨rnRat a.n (2 ^ (bits a.n - 53)), a.s - (bits a.n - 53)⟩

/-- CPython int→float conversion: correctly rounded (exact below `2^53`). -/
def intToFloat (v : ℕ) : Dy := flDy ⟨v, 0⟩

/-- Python `round(x)` on a nonnegative float: nearest integer, ties to even. -/
def pyRoundEven (a : Dy) : ℕ :=
  if 0 ≤ a.s then rnRat a.n (2 ^ a.s.toNat) else a.n * 2 ^ (-a.s).toNat

def findEAux (p q : ℕ) : ℕ → ℕ → ℕ
  | 0, e => e
  | f + 1, e => if q * 2 ^ 52 ≤ p * 2 ^ e then e else findEAux p q f (e + 1)

/-- The binary64 value of a decimal literal `p/q` with `0 < p < q` (the CTR
constants all lie in `(0, 1)`): scale `p/q` into `[2^52, 2^53)` and round the
significand to nearest, ties to even. -/
def flRat (p q : ℕ) : Dy :=
  let e := findEAux p q 200 0
  ⟨rnRat (p * 2 ^ e) q, (e : ℤ)⟩

/-- `_CTR_CURVE.get(rank_int, 0.01 if rank_int <= 20 else 0)`: the fixed
click-through-rate curve by position, each entry the binary64 value of its
decimal literal (`0` is the int default for ranks above 20). -/
def ctrOfRank (r : Int) : Dy :=
  if r = 1 then flRat 28 100 else if r = 2 then flRat 15 100
  else if r = 3 then flRat 11 100 else if r = 4 then flRat 8 100
  else if r = 5 then flRat 7 100 else if r = 6 then flRat 5 100
  else if r = 7 then flRat 4 100 else if r = 8 then flRat 3 100
  else if r = 9 then flRat 3 100 else if r = 10 then flRat 2 100
  else if r ≤ 20 then flRat 1 100 else ⟨0, 0⟩

/-- `round(vol * ctr)` exactly as CPython computes it: int→float conversion,
one correctly rounded binary64 multiplication, then banker's round. -/
def estOf (v : ℕ) (c : Dy) : ℕ := pyRoundEven (flDy (dyMul (intToFloat v) c))

/-- One record of `_fill_traffic_estimates`: fill `traffic_estimate` with
`round(vol * ctr)` when it is missing or nonpositive and both a truthy rank
and a nonzero volume are present, keeping the record unchanged when the
rounded estimate is zero.  A rank that is not an integer (the `int(rank)`
`try/except` path) behaves like a missing rank and is modelled by `none`;
the computed estimate is a Python int, stored in the ℚ-valued field that
provider-supplied estimates share. -/
def fillStep (kw : KwRec) : KwRec :=
  if kw.traffic_estimate.getD 0 > 0 then kw
  else
    match kw.rank with
    | none => kw
    | some r =>
      if r = 0 then kw
      else
        if kw.search_volume.getD 0 = 0 then kw
        else
          let est := estOf (kw.search_volume.getD 0) (ctrOfRank r)
          if est > 0 then { kw with traffic_estimate := some (est : ℚ) } else kw

/-- `_fill_traffic_estimates(kws)` (in-place mutation of each dict, modelled
as a map). -/
def _fill_traffic_estimates (kws : List KwRec) : List KwRec := kws.map fillStep

/-! #### Error bounds for the binary64 model -/

theorem bitsAux_zero (f : ℕ) : bitsAux f 0 = 0 := by
  cases f <;> rfl

theorem bitsAux_spec : ∀ f n : ℕ, n ≤ f → 0 < n →
    2 ^ (bitsAux f n - 1) ≤ n ∧ n < 2 ^ bitsAux f n := by
  intro f
  induction f with
  | zero =>
    intro n hn h0
    omega
  | succ f ih =>
    intro n hn h0
    obtain ⟨n, rfl⟩ : ∃ u, n = u + 1 := ⟨n - 1, by omega⟩
    show 2 ^ (1 + bitsAux f ((n + 1) / 2) - 1) ≤ n + 1 ∧
      n + 1 < 2 ^ (1 + bitsAux f ((n + 1) / 2))
    by_cases h1 : n = 0
    · subst h1
      rw [show (0 + 1) / 2 = 0 from rfl, bitsAux_zero]
      norm_num
    · have h2 : 0 < (n + 1) / 2 := by omega
      have h3 : (n + 1) / 2 ≤ f := by omega
      obtain ⟨l, u⟩ := ih ((n + 1) / 2) h3 h2
      have hb1 : bitsAux f ((n + 1) / 2) ≠ 0 := by
        intro hz
        rw [hz, pow_zero] at u
        omega
      set b := bitsAux f ((n + 1) / 2) with hbdef
      constructor
      · have e1 : 2 ^ (1 + b - 1) = 2 ^ (b - 1) * 2 := by
          rw [← pow_succ]
          congr 1
          omega
        rw [e1]
        calc 2 ^ (b - 1) * 2 ≤ ((n + 1) / 2) * 2 := Nat.mul_le_mul_right 2 l
          _ ≤ n + 1 := Nat.div_mul_le_self _ _
      · have e2 : 2 ^ (1 + b) = 2 ^ b * 2 := by
          rw [← pow_succ]
          congr 1
          omega
        rw [e2]
        have u2 : ((n + 1) / 2 + 1) * 2 ≤ 2 ^ b * 2 := Nat.mul_le_mul_right 2 u
        have u3 : n + 1 < ((n + 1) / 2 + 1) * 2 := by omega
        exact lt_of_lt_of_le u3 u2

theorem bits_spec {n : ℕ} (h : 0 < n) : 2 ^ (bits n - 1) ≤ n ∧ n < 2 ^ bits n :=
  bitsAux_spec n n le_rfl h

theorem bits_le_of_lt_pow {n B : ℕ} (h : n < 2 ^ B) : bits n ≤ B := by
  rcases Nat.eq_zero_or_pos n with rfl | hn
  · rw [show bits 0 = 0 from rfl]
    exact Nat.zero_le B
  · by_contra hb
    push_neg at hb
    have h1 := (bits_spec hn).1
    have h2 : 2 ^ B ≤ 2 ^ (bits n - 1) :=
      Nat.pow_le_pow_right (by norm_num) (by omega)
    exact lt_irrefl n (lt_of_lt_of_le h (le_trans h2 h1))

theorem rnRat_bounds (a q : ℕ) (hq : 0 < q) :
    2 * a ≤ 2 * rnRat a q * q + q ∧ 2 * rnRat a q * q ≤ 2 * a + q := by
  have hX : a / q * q + a % q = a := Nat.div_add_mod' a q
  have hr : a % q < q := Nat.mod_lt a hq
  have e1 : ∀ c : ℕ, 2 * (a / q + c) * q = 2 * (a / q * q) + 2 * c * q := fun c => by ring
  simp only [rnRat]
  split_ifs with h1 h2 h3 <;> refine ⟨?_, ?_⟩ <;>
    (try rw [e1 1]) <;> (try rw [show 2 * (a / q) * q = 2 * (a / q * q) from by ring]) <;>
    (revert hX; generalize a / q * q = X; intro hX; omega)

theorem rnRat_ub (a q : ℕ) (hq : 0 < q) : 2 * rnRat a q * q ≤ 2 * a + q :=
  (rnRat_bounds a q hq).2

theorem rnRat_lb (a q : ℕ) (hq : 0 < q) : 2 * a ≤ 2 * rnRat a q * q + q :=
  (rnRat_bounds a q hq).1

theorem rnRat_one (a : ℕ) : rnRat a 1 = a := by
  simp [rnRat, Nat.mod_one]

theorem pyRoundEven_flDy_eq (A e : ℕ) (h1 : 1 ≤ e) (hA : bits A ≤ 52 + e) :
    pyRoundEven (flDy ⟨A, (e : ℤ)⟩)
      = rnRat (rnRat A (2 ^ (bits A - 53))) (2 ^ (e - (bits A - 53))) := by
  by_cases hb : bits A ≤ 53
  · have hk0 : bits A - 53 = 0 := by omega
    rw [hk0, pow_zero, rnRat_one, Nat.sub_zero]
    simp only [flDy]
    rw [if_pos hb]
    simp only [pyRoundEven]
    rw [if_pos (Int.natCast_nonneg e)]
    have he : ((e : ℤ)).toNat = e := by omega
    rw [he]
  · simp only [flDy]
    rw [if_neg hb]
    simp only [pyRoundEven]
    have hs : (0 : ℤ) ≤ (e : ℤ) - ((bits A : ℤ) - 53) := by omega
    rw [if_pos hs]
    have he : ((e : ℤ) - ((bits A : ℤ) - 53)).toNat = e - (bits A - 53) := by omega
    rw [he]

theorem estRound_ub (A e : ℕ) (h1 : 1 ≤ e) (hA : bits A ≤ 52 + e) :
    2 ^ 53 * (2 * pyRoundEven (flDy ⟨A, (e : ℤ)⟩) * 2 ^ e)
      ≤ 2 * (2 ^ 53 + 1) * A + 2 ^ 53 * 2 ^ e := by
  rw [pyRoundEven_flDy_eq A e h1 hA]
  by_cases hb : bits A ≤ 53
  · have hk0 : bits A - 53 = 0 := by omega
    rw [hk0, pow_zero, rnRat_one, Nat.sub_zero]
    have houter := rnRat_ub A (2 ^ e) (pow_pos (by norm_num) _)
    calc 2 ^ 53 * (2 * rnRat A (2 ^ e) * 2 ^ e) ≤ 2 ^ 53 * (2 * A + 2 ^ e) :=
          Nat.mul_le_mul_left _ houter
      _ = 2 * 2 ^ 53 * A + 2 ^ 53 * 2 ^ e := by ring
      _ ≤ 2 * (2 ^ 53 + 1) * A + 2 ^ 53 * 2 ^ e :=
          Nat.add_le_add_right (Nat.mul_le_mul_right _ (by norm_num)) _
  · have hA0 : 0 < A := by
      rcases Nat.eq_zero_or_pos A with h | h
      · subst h
        rw [show bits 0 = 0 from rfl] at hb
        omega
      · exact h
    set k := bits A - 53 with hk
    set M := rnRat A (2 ^ k) with hM
    have hk1 : 1 ≤ k := by omega
    have hke : k ≤ e := by omega
    have hPe : 2 ^ (e - k) * 2 ^ k = 2 ^ e := by
      rw [← pow_add]
      congr 1
      omega
    have hsz : 2 ^ 52 * 2 ^ k ≤ A := by
      calc 2 ^ 52 * 2 ^ k = 2 ^ (52 + k) := by rw [← pow_add]
        _ = 2 ^ (bits A - 1) := by congr 1; omega
        _ ≤ A := (bits_spec hA0).1
    have houter := rnRat_ub M (2 ^ (e - k)) (pow_pos (by norm_num) _)
    have hinner := rnRat_ub A (2 ^ k) (pow_pos (by norm_num) _)
    calc 2 ^ 53 * (2 * rnRat M (2 ^ (e - k)) * 2 ^ e)
        = 2 ^ 53 * (2 * rnRat M (2 ^ (e - k)) * 2 ^ (e - k)) * 2 ^ k := by
          rw [← hPe]
          ring
      _ ≤ 2 ^ 53 * (2 * M + 2 ^ (e - k)) * 2 ^ k :=
          Nat.mul_le_mul_right _ (Nat.mul_le_mul_left _ houter)
      _ = 2 ^ 53 * (2 * M * 2 ^ k) + 2 ^ 53 * (2 ^ (e - k) * 2 ^ k) := by ring
      _ = 2 ^ 53 * (2 * M * 2 ^ k) + 2 ^ 53 * 2 ^ e := by rw [hPe]
      _ ≤ 2 ^ 53 * (2 * A + 2 ^ k) + 2 ^ 53 * 2 ^ e :=
          Nat.add_le_add_right (Nat.mul_le_mul_left _ hinner) _
      _ = 2 * 2 ^ 53 * A + 2 * (2 ^ 52 * 2 ^ k) + 2 ^ 53 * 2 ^ e := by ring
      _ ≤ 2 * 2 ^ 53 * A + 2 * A + 2 ^ 53 * 2 ^ e :=
          Nat.add_le_add_right (Nat.add_le_add_left (Nat.mul_le_mul_left _ hsz) _) _
      _ = 2 * (2 ^ 53 + 1) * A + 2 ^ 53 * 2 ^ e := by ring

theorem estRound_lb (A e : ℕ) (h1 : 1 ≤ e) (hA : bits A ≤ 52 + e) :
    2 * 2 ^ 53 * A
      ≤ 2 ^ 53 * (2 * pyRoundEven (flDy ⟨A, (e : ℤ)⟩) * 2 ^ e) + 2 ^ 53 * 2 ^ e + 2 * A := by
  rw [pyRoundEven_flDy_eq A e h1 hA]
  by_cases hb : bits A ≤ 53
  · have hk0 : bits A - 53 = 0 := by omega
    rw [hk0, pow_zero, rnRat_one, Nat.sub_zero]
    have houter := rnRat_lb A (2 ^ e) (pow_pos (by norm_num) _)
    calc 2 * 2 ^ 53 * A = 2 ^ 53 * (2 * A) := by ring
      _ ≤ 2 ^ 53 * (2 * rnRat A (2 ^ e) * 2 ^ e + 2 ^ e) := Nat.mul_le_mul_left _ houter
      _ = 2 ^ 53 * (2 * rnRat A (2 ^ e) * 2 ^ e) + 2 ^ 53 * 2 ^ e := by ring
      _ ≤ 2 ^ 53 * (2 * rnRat A (2 ^ e) * 2 ^ e) + 2 ^ 53 * 2 ^ e + 2 * A :=
          Nat.le_add_right _ _
  · have hA0 : 0 < A := by
      rcases Nat.eq_zero_or_pos A with h | h
      · subst h
        rw [show bits 0 = 0 from rfl] at hb
        omega
      · exact h
    set k := bits A - 53 with hk
    set M := rnRat A (2 ^ k) with hM
    have hk1 : 1 ≤ k := by omega
    have hke : k ≤ e := by omega
    have hPe : 2 ^ (e - k) * 2 ^ k = 2 ^ e := by
      rw [← pow_add]
      congr 1
      omega
    have hsz : 2 ^ 52 * 2 ^ k ≤ A := by
      calc 2 ^ 52 * 2 ^ k = 2 ^ (52 + k) := by rw [← pow_add]
        _ = 2 ^ (bits A - 1) := by congr 1; omega
        _ ≤ A := (bits_spec hA0).1
    have houter := rnRat_lb M (2 ^ (e - k)) (pow_pos (by norm_num) _)
    have hinner := rnRat_lb A (2 ^ k) (pow_pos (by norm_num) _)
    calc 2 * 2 ^ 53 * A = 2 ^ 53 * (2 * A) := by ring
      _ ≤ 2 ^ 53 * (2 * M * 2 ^ k + 2 ^ k) := Nat.mul_le_mul_left _ hinner
      _ = 2 ^ 53 * (2 * M) * 2 ^ k + 2 * (2 ^ 52 * 2 ^ k) := by ring
      _ ≤ 2 ^ 53 * (2 * rnRat M (2 ^ (e - k)) * 2 ^ (e - k) + 2 ^ (e - k)) * 2 ^ k + 2 * A :=
          Nat.add_le_add (Nat.mul_le_mul_right _ (Nat.mul_le_mul_left _ houter))
            (Nat.mul_le_mul_left _ hsz)
      _ = 2 ^ 53 * (2 * rnRat M (2 ^ (e - k)) * 2 ^ e) + 2 ^ 53 * 2 ^ e + 2 * A := by
          rw [← hPe]
          ring

theorem estOf_eq (v m e : ℕ) (hv : v < 2 ^ 53) :
    estOf v ⟨m, (e : ℤ)⟩ = pyRoundEven (flDy ⟨v * m, (e : ℤ)⟩) := by
  simp only [estOf, intToFloat]
  rw [show flDy ⟨v, 0⟩ = ⟨v, 0⟩ from by
    simp only [flDy]
    rw [if_pos (bits_le_of_lt_pow hv)]]
  simp only [dyMul]
  norm_num

theorem ctr1_eq : ctrOfRank 1 = ⟨5044031582654956, ((54 : ℕ) : ℤ)⟩ := by decide

theorem ctr5_eq : ctrOfRank 5 = ⟨5044031582654956, ((56 : ℕ) : ℤ)⟩ := by decide

theorem estOf_rank1_pos (v : ℕ) (hv2 : 2 ≤ v) (hv : v < 2 ^ 53) :
    0 < estOf v (ctrOfRank 1) := by
  rcases Nat.lt_or_ge v 5 with h5 | h5
  · interval_cases v <;> decide
  · rw [ctr1_eq, estOf_eq v 5044031582654956 54 hv]
    have hlt : v * 5044031582654956 < 2 ^ 106 := by
      calc v * 5044031582654956 < 2 ^ 53 * 2 ^ 53 :=
            mul_lt_mul'' hv (by norm_num) (Nat.zero_le _) (Nat.zero_le _)
        _ = 2 ^ 106 := by norm_num
    have hlb := estRound_lb (v * 5044031582654956) 54 (by norm_num)
      (by have := bits_le_of_lt_pow hlt; omega)
    by_contra h0
    push_neg at h0
    have hz : pyRoundEven (flDy ⟨v * 5044031582654956, ((54 : ℕ) : ℤ)⟩) = 0 := by omega
    rw [hz] at hlb
    have hAge : 5 * 5044031582654956 ≤ v * 5044031582654956 :=
      Nat.mul_le_mul_right _ h5
    norm_num at hlb
    omega

theorem estOf_rank1_gt_rank5 (v : ℕ) (hv2 : 2 ≤ v) (hv : v < 2 ^ 53) :
    estOf v (ctrOfRank 5) < estOf v (ctrOfRank 1) := by
  rcases Nat.lt_or_ge v 5 with h5 | h5
  · interval_cases v <;> decide
  · rw [ctr1_eq, ctr5_eq, estOf_eq v 5044031582654956 54 hv,
      estOf_eq v 5044031582654956 56 hv]
    have hlt : v * 5044031582654956 < 2 ^ 106 := by
      calc v * 5044031582654956 < 2 ^ 53 * 2 ^ 53 :=
            mul_lt_mul'' hv (by norm_num) (Nat.zero_le _) (Nat.zero_le _)
        _ = 2 ^ 106 := by norm_num
    have hbits := bits_le_of_lt_pow hlt
    have h1 := estRound_lb (v * 5044031582654956) 54 (by norm_num) (by omega)
    have h2 := estRound_ub (v * 5044031582654956) 56 (by norm_num) (by omega)
    have hAge : 5 * 5044031582654956 ≤ v * 5044031582654956 :=
      Nat.mul_le_mul_right _ h5
    by_contra hle
    push_neg at hle
    norm_num at h1 h2 hle hAge
    omega

/-- C4 counterexample: for two otherwise-identical records with ranks 1 and 5,
search_volume 1 and missing traffic_estimate, the backfill computes a zero
estimate for both (round(1·0.28) = round(1·0.07) = 0), writes neither, and so
does not produce a strictly greater rank-1 estimate. -/
theorem C4_counterexample :
    (_fill_traffic_estimates
      [{ keyword := some "plumber gilbert", rank := some 1, search_volume := some 1 },
       { keyword := some "plumber gilbert", rank := some 5, search_volume := some 1 }]).map
      KwRec.traffic_estimate = [none, none] := by
  simp only [_fill_traffic_estimates, List.map_cons, List.map_nil, fillStep,
    Option.getD_some, Option.getD_none]
  rw [if_neg (by norm_num : ¬((0 : ℚ) > 0)), if_neg (by norm_num : ¬((1 : ℤ) = 0)),
    if_neg (by norm_num : ¬((1 : ℕ) = 0)),
    if_neg (by decide : ¬(estOf 1 (ctrOfRank 1) > 0)),
    if_neg (by norm_num : ¬((0 : ℚ) > 0)), if_neg (by norm_num : ¬((5 : ℤ) = 0)),
    if_neg (by norm_num : ¬((1 : ℕ) = 0)),
    if_neg (by decide : ¬(estOf 1 (ctrOfRank 5) > 0))]

/-- C4 (amended): for two otherwise-identical records differing only in rank
(1 vs 5), with the same search_volume v (2 ≤ v < 2^53, the int-exact float
range) and missing traffic_estimate, the backfill computes `round(v·0.28)`
for rank 1 (always written, being positive) and `round(v·0.07)` for rank 5
(written only when positive) — both exactly as CPython's binary64 arithmetic
and banker's `round` produce them — with the former strictly greater; the
curve maps ranks 11–20 to the float 0.01 and ranks above 20 to 0; and a
record whose traffic_estimate is already positive is never overwritten.
(For v ≤ 1 both estimates round to zero and neither is written.) -/
theorem C4_ctr_backfill_amended (v : ℕ) (hv : 2 ≤ v) (hv53 : v < 2 ^ 53)
    (k : Option String) (c : Option ℚ) (cl : Option String) :
    _fill_traffic_estimates
        [{ keyword := k, rank := some 1, search_volume := some v,
           traffic_estimate := none, cpc := c, competition_level := cl },
         { keyword := k, rank := some 5, search_volume := some v,
           traffic_estimate := none, cpc := c, competition_level := cl }] =
      [{ keyword := k, rank := some 1, search_volume := some v,
         traffic_estimate := some (estOf v (ctrOfRank 1) : ℚ),
         cpc := c, competition_level := cl },
       if estOf v (ctrOfRank 5) > 0 then
         { keyword := k, rank := some 5, search_volume := some v,
           traffic_estimate := some (estOf v (ctrOfRank 5) : ℚ),
           cpc := c, competition_level := cl }
       else
         { keyword := k, rank := some 5, search_volume := some v,
           traffic_estimate := none, cpc := c, competition_level := cl }] ∧
    estOf v (ctrOfRank 5) < estOf v (ctrOfRank 1) ∧
    (∀ r : ℤ, 11 ≤ r → r ≤ 20 → ctrOfRank r = flRat 1 100) ∧
    (∀ r : ℤ, 20 < r → ctrOfRank r = ⟨0, 0⟩) ∧
    (∀ kw : KwRec, ∀ t : ℚ, kw.traffic_estimate = some t → 0 < t → fillStep kw = kw) := by
  have hv0 : v ≠ 0 := by omega
  have hpos1 : 0 < estOf v (ctrOfRank 1) := estOf_rank1_pos v hv hv53
  refine ⟨?_, estOf_rank1_gt_rank5 v hv hv53, ?_, ?_, ?_⟩
  · simp only [_fill_traffic_estimates, List.map_cons, List.map_nil]
    congr 1
    · simp only [fillStep, Option.getD_none, Option.getD_some]
      rw [if_neg (by norm_num)]
      rw [if_neg (by norm_num : ¬(1 : ℤ) = 0), if_neg hv0]
      rw [if_pos hpos1]
    · congr 1
      simp only [fillStep, Option.getD_none, Option.getD_some]
      rw [if_neg (by norm_num)]
      rw [if_neg (by norm_num : ¬(5 : ℤ) = 0), if_neg hv0]
  · intro r h1 h2
    have k1 : ¬(r = 1) := by omega
    have k2 : ¬(r = 2) := by omega
    have k3 : ¬(r = 3) := by omega
    have k4 : ¬(r = 4) := by omega
    have k5 : ¬(r = 5) := by omega
    have k6 : ¬(r = 6) := by omega
    have k7 : ¬(r = 7) := by omega
    have k8 : ¬(r = 8) := by omega
    have k9 : ¬(r = 9) := by omega
    have k10 : ¬(r = 10) := by omega
    simp only [ctrOfRank]
    rw [if_neg k1, if_neg k2, if_neg k3, if_neg k4, if_neg k5, if_neg k6, if_neg k7,
      if_neg k8, if_neg k9, if_neg k10, if_pos (show r ≤ 20 by omega)]
  · intro r h1
    have m1 : ¬(r = 1) := by omega
    have m2 : ¬(r = 2) := by omega
    have m3 : ¬(r = 3) := by omega
    have m4 : ¬(r = 4) := by omega
    have m5 : ¬(r = 5) := by omega
    have m6 : ¬(r = 6) := by omega
    have m7 : ¬(r = 7) := by omega
    have m8 : ¬(r = 8) := by omega
    have m9 : ¬(r = 9) := by omega
    have m10 : ¬(r = 10) := by omega
    simp only [ctrOfRank]
    rw [if_neg m1, if_neg m2, if_neg m3, if_neg m4, if_neg m5, if_neg m6, if_neg m7,
      if_neg m8, if_neg m9, if_neg m10, if_neg (show ¬(r ≤ 20) by omega)]
  · intro kw t ht hpos
    simp only [fillStep, ht, Option.getD_some]
    rw [if_pos hpos]

/-- Concrete instantiation of C4 (amended) at v = 100: the rank-1 estimate
round(100·0.28) = 28 strictly exceeds the rank-5 estimate round(100·0.07) = 7. -/
theorem C4_witness : estOf 100 (ctrOfRank 5) < estOf 100 (ctrOfRank 1) :=
  (C4_ctr_backfill_amended 100 (by decide) (by decide) none none none).2.1


/-! ### Metro competitor discovery (`prospect_audit.py`)

The per-locale SERP research call (`research_competitors(...)["all_domains"]`)
is modelled as an oracle `env : String → Except String (List String)` indexed
by metro city; `Except.error` models a raised exception. -/

/-- `_EXCLUDED_DOMAINS`: directories, aggregators, review sites, chains. -/
def _EXCLUDED_DOMAINS : List String :=
  ["yelp.com", "yellowpages.com", "angi.com", "homeadvisor.com",
   "thumbtack.com", "google.com", "bbb.org", "reddit.com",
   "nextdoor.com", "facebook.com", "instagram.com", "houzz.com",
   "bark.com", "porch.com", "fixr.com", "angieslist.com",
   "manta.com", "expertise.com", "mapquest.com", "whitepages.com",
   "citysearch.com", "superpages.com", "dexknows.com", "local.com",
   "merchantcircle.com", "brownbook.net", "hotfrog.com",
   "cobblestone.com", "mister-car-wash.com", "waterway.com",
   "expresscarwash.com", "speedyshine.com", "autobell.com",
   "goo-goo.com", "turtlewax.com",
   "servicemaster.com", "neighborly.com", "handyman.com",
   "serviceseeking.com", "hipages.com.au",
   "ziprecruiter.com", "indeed.com", "glassdoor.com"]

/-- `_LARGE_CHAIN_DOMAINS`: national/regional chains excluded from the
"local market leader" framing. -/
def _LARGE_CHAIN_DOMAINS : List String :=
  ["rotorooter.com", "roto-rooter.com", "mrrooter.com",
   "benjaminfranklinplumbing.com", "rooterhero.com",
   "parkerandsons.com",
   "onehourheatandair.com", "serviceexperts.com",
   "callmrelectric.com", "ahs.com",
   "comfortsystemsusa.com"]

/-- `_is_large_chain(domain)`. -/
def _is_large_chain (domain : String) : Bool :=
  let d := pyRemove (pyStrip (pyLower domain)) "www."
  d ∈ _LARGE_CHAIN_DOMAINS ∨ _LARGE_CHAIN_DOMAINS.any (fun c => strContains d c)

/-- `_is_excluded_domain(domain)`. -/
def _is_excluded_domain (domain : String) : Bool :=
  if domain = "" then true
  else
    let d := pyRemove (pyStrip (pyLower domain)) "www."
    if d ∈ _EXCLUDED_DOMAINS then true
    else
      ["yelp.com", "google.com", "facebook.com", "instagram.com",
       "angi.com", "thumbtack.com", "homeadvisor.com"].any (fun p => strContains d p)

/-- `_search_city(city)`: top non-excluded domains for one city; a raised
exception degrades to an empty list. -/
def _search_city (env : String → Except String (List String)) (city : String) :
    List String :=
  match env city with
  | .error _ => []
  | .ok all_domains => (all_domains.filter (fun d => !(_is_excluded_domain d))).take 4

/-- The aggregation loop of `_discover_metro_competitors`: count which cities
each domain appeared in (`domain_cities`). -/
def cityAgg (pairs : List (String × List String)) : List (String × List String) :=
  pairs.foldl (fun m cd => cd.2.foldl (fun m d => appendA d cd.1 m) m) []

/-- The `(domain, city)` events scanned by the aggregation loop, in order. -/
def cityEvents (pairs : List (String × List String)) : List (String × String) :=
  pairs.flatMap fun cd => cd.2.map fun d => (d, cd.1)

/-- The ranking phase of `_discover_metro_competitors`: sort domains by number
of appearances (most cities first; Python sort is stable) and cap at 7. -/
def rankDiscoveredDomains (cities : List String) (city_results : List (List String)) :
    List (String × List String) :=
  let m := cityAgg (cities.zip city_results)
  let sorted_domains := pySortDesc (fun d => ((lookupA d m).getD []).length) (keysA m)
  (sorted_domains.take 7).map fun d => (d, (lookupA d m).getD [])

/-- `_discover_metro_competitors(service, metro_cities, ...)`: with missing
credentials returns `{}`; otherwise searches every city (the keyword/location
construction is inside the oracle) and ranks the aggregated domains. -/
def _discover_metro_competitors (hasCreds : Bool)
    (env : String → Except String (List String)) (metro_cities : List String) :
    List (String × List String) :=
  if !hasCreds then []
  else rankDiscoveredDomains metro_cities (metro_cities.map (_search_city env))

/-- Claim-side: the list of locales (cities) whose discovery result contains
`d`, in locale order. -/
def localesOf (cities : List String) (results : List (List String)) (d : String) :
    List String :=
  (cities.zip results).filterMap fun cr => if d ∈ cr.2 then some cr.1 else none

/-- The cities appended for domain `d` by the aggregation loop (one per
occurrence of `d` in an event). -/
def eventsCities (d : String) (events : List (String × String)) : List String :=
  events.filterMap fun e => if e.1 = d then some e.2 else none

/-- First-occurrence deduplication (the order in which a Python dict first
sees its keys). -/
def firstSeenAux (seen : List String) : List String → List String
  | [] => []
  | x :: xs => if x ∈ seen then firstSeenAux seen xs else x :: firstSeenAux (x :: seen) xs

def firstSeen (l : List String) : List String := firstSeenAux [] l

theorem cityAgg_eq_events_fold (pairs : List (String × List String)) :
    cityAgg pairs = (cityEvents pairs).foldl (fun m dc => appendA dc.1 dc.2 m) [] := by
  unfold cityAgg cityEvents
  generalize ([] : List (String × List String)) = init
  induction pairs generalizing init with
  | nil => rfl
  | cons cd rest ih =>
    rw [List.foldl_cons, ih, List.flatMap_cons, List.foldl_append, List.foldl_map]

theorem lookupA_appendA_self {γ : Type} (k : String) (x : γ) :
    ∀ m : List (String × List γ),
      lookupA k (appendA k x m) = some ((lookupA k m).getD [] ++ [x]) := by
  intro m
  induction m with
  | nil => simp [appendA, lookupA]
  | cons e rest ih =>
    obtain ⟨k', vs⟩ := e
    by_cases h : k' = k
    · subst h
      simp [appendA, lookupA]
    · simp only [appendA, if_neg h, lookupA, if_neg h]
      exact ih

theorem lookupA_appendA_ne {γ : Type} {k t : String} (hne : t ≠ k) (x : γ) :
    ∀ m : List (String × List γ), lookupA t (appendA k x m) = lookupA t m := by
  intro m
  induction m with
  | nil =>
    simp only [appendA, lookupA]
    rw [if_neg fun h => hne h.symm]
  | cons e rest ih =>
    obtain ⟨k', vs⟩ := e
    by_cases h : k' = k
    · subst h
      simp only [appendA, if_pos rfl, lookupA]
      rw [if_neg fun h => hne h.symm, if_neg fun h => hne h.symm]
    · simp only [appendA, if_neg h, lookupA]
      by_cases h2 : k' = t
      · rw [if_pos h2, if_pos h2]
      · rw [if_neg h2, if_neg h2, ih]

theorem eventsCities_cons (d : String) (e : String × String) (es : List (String × String)) :
    eventsCities d (e :: es) =
      if e.1 = d then e.2 :: eventsCities d es else eventsCities d es := by
  unfold eventsCities
  rw [List.filterMap_cons]
  by_cases h : e.1 = d
  · rw [if_pos h, if_pos h]
  · rw [if_neg h, if_neg h]

theorem lookupA_events_fold (d : String) :
    ∀ (events : List (String × String)) (m : List (String × List String)),
      lookupA d (events.foldl (fun m dc => appendA dc.1 dc.2 m) m) =
        match lookupA d m with
        | some vs => some (vs ++ eventsCities d events)
        | none => if eventsCities d events = [] then none else some (eventsCities d events) := by
  intro events
  induction events with
  | nil =>
    intro m
    rcases h : lookupA d m with _ | vs <;> simp [eventsCities, h]
  | cons e es ih =>
    intro m
    obtain ⟨d', c⟩ := e
    rw [List.foldl_cons, ih, eventsCities_cons]
    by_cases hd : d' = d
    · subst hd
      rw [if_pos rfl]
      rw [lookupA_appendA_self]
      rcases h : lookupA d' m with _ | vs
      · simp [h]
      · simp [h]
    · rw [if_neg hd, lookupA_appendA_ne (fun h => hd h.symm)]

theorem firstSeenAux_congr : ∀ (l : List String) (s₁ s₂ : List String),
    (∀ x, x ∈ s₁ ↔ x ∈ s₂) → firstSeenAux s₁ l = firstSeenAux s₂ l := by
  intro l
  induction l with
  | nil => intro _ _ _; rfl
  | cons x xs ih =>
    intro s₁ s₂ h
    unfold firstSeenAux
    by_cases hx : x ∈ s₁
    · rw [if_pos hx, if_pos ((h x).mp hx)]
      exact ih s₁ s₂ h
    · rw [if_neg hx, if_neg (fun hc => hx ((h x).mpr hc))]
      congr 1
      refine ih _ _ fun y => ?_
      simp only [List.mem_cons]
      exact or_congr Iff.rfl (h y)

theorem firstSeenAux_cons (seen : List String) (x : String) (xs : List String) :
    firstSeenAux seen (x :: xs) =
      if x ∈ seen then firstSeenAux seen xs else x :: firstSeenAux (x :: seen) xs := rfl

theorem keysA_events_fold :
    ∀ (events : List (String × String)) (m : List (String × List String)),
      keysA (events.foldl (fun m dc => appendA dc.1 dc.2 m) m) =
        keysA m ++ firstSeenAux (keysA m) (events.map Prod.fst) := by
  intro events
  induction events with
  | nil => intro m; simp [firstSeenAux]
  | cons e es ih =>
    intro m
    obtain ⟨d', c⟩ := e
    rw [List.foldl_cons, ih, List.map_cons]
    dsimp only
    rw [firstSeenAux_cons]
    by_cases hd : d' ∈ keysA m
    · rw [if_pos hd, keysA_appendA_mem _ _ _ hd]
    · rw [if_neg hd, keysA_appendA_not_mem _ _ _ hd, List.append_assoc, List.singleton_append]
      congr 1
      congr 1
      refine firstSeenAux_congr _ _ _ fun y => ?_
      simp only [List.mem_append, List.mem_singleton, List.mem_cons]
      tauto

theorem firstSeenAux_nodup : ∀ (l seen : List String),
    (firstSeenAux seen l).Nodup ∧ ∀ x ∈ firstSeenAux seen l, x ∉ seen := by
  intro l
  induction l with
  | nil => intro seen; exact ⟨List.nodup_nil, by simp [firstSeenAux]⟩
  | cons x xs ih =>
    intro seen
    unfold firstSeenAux
    by_cases hx : x ∈ seen
    · rw [if_pos hx]
      exact ih seen
    · rw [if_neg hx]
      obtain ⟨hnd, hmem⟩ := ih (x :: seen)
      constructor
      · refine List.nodup_cons.mpr ⟨?_, hnd⟩
        intro hc
        exact hmem x hc (List.mem_cons_self _ _)
      · intro y hy
        rcases List.mem_cons.mp hy with h1 | h1
        · exact h1 ▸ hx
        · intro hc
          exact hmem y h1 (List.mem_cons_of_mem _ hc)

theorem mem_firstSeenAux : ∀ (l seen : List String) (x : String),
    x ∈ firstSeenAux seen l ↔ x ∈ l ∧ x ∉ seen := by
  intro l
  induction l with
  | nil => intro seen x; simp [firstSeenAux]
  | cons y ys ih =>
    intro seen x
    rw [firstSeenAux_cons]
    by_cases hy : y ∈ seen
    · rw [if_pos hy]
      simp only [List.mem_cons, ih]
      constructor
      · rintro ⟨h1, h2⟩
        exact ⟨Or.inr h1, h2⟩
      · rintro ⟨h1 | h1, h2⟩
        · exact absurd (h1.symm ▸ hy) h2
        · exact ⟨h1, h2⟩
    · rw [if_neg hy]
      simp only [List.mem_cons, ih]
      constructor
      · rintro (h1 | ⟨h1, h2⟩)
        · refine ⟨Or.inl h1, fun hc => hy ?_⟩
          rw [← h1]
          exact hc
        · exact ⟨Or.inr h1, fun hc => h2 (Or.inr hc)⟩
      · rintro ⟨h1 | h1, h2⟩
        · exact Or.inl h1
        · by_cases hxy : x = y
          · exact Or.inl hxy
          · refine Or.inr ⟨h1, ?_⟩
            rintro (h3 | h3)
            · exact hxy h3
            · exact h2 h3
theorem cityEvents_map_fst (pairs : List (String × List String)) :
    (cityEvents pairs).map Prod.fst = pairs.flatMap Prod.snd := by
  unfold cityEvents
  rw [List.map_flatMap]
  refine List.flatMap_congr fun cd _ => ?_
  rw [List.map_map, show (Prod.fst ∘ fun d => (d, cd.1)) = id from rfl, List.map_id]

theorem filterMap_pair_eq_of_nodup (d c : String) :
    ∀ l : List String, l.Nodup →
      (l.map fun x => (x, c)).filterMap
          (fun e => if e.1 = d then some e.2 else none) =
        if d ∈ l then [c] else [] := by
  intro l
  induction l with
  | nil => intro _; simp
  | cons x xs ih =>
    intro hnd
    rw [List.map_cons, List.filterMap_cons]
    by_cases hx : x = d
    · subst hx
      have hnin : x ∉ xs := (List.nodup_cons.mp hnd).1
      have hxs : (xs.map fun y => (y, c)).filterMap
          (fun e => if e.1 = x then some e.2 else none) = [] := by
        rw [ih (List.nodup_cons.mp hnd).2, if_neg hnin]
      rw [if_pos (List.mem_cons_self _ _)]
      simp [hxs]
    · rw [if_neg hx, ih (List.nodup_cons.mp hnd).2]
      by_cases hd : d ∈ xs
      · rw [if_pos hd, if_pos (List.mem_cons_of_mem _ hd)]
      · rw [if_neg hd, if_neg (by
          intro hc
          rcases List.mem_cons.mp hc with h3 | h3
          · exact hx h3.symm
          · exact hd h3)]

theorem eventsCities_eq_localesOf (d : String) :
    ∀ pairs : List (String × List String), (∀ p ∈ pairs, p.2.Nodup) →
      eventsCities d (cityEvents pairs) =
        pairs.filterMap (fun cr => if d ∈ cr.2 then some cr.1 else none) := by
  intro pairs
  induction pairs with
  | nil => intro _; rfl
  | cons cr rest ih =>
    intro hnd
    unfold cityEvents
    rw [List.flatMap_cons]
    unfold eventsCities
    rw [List.filterMap_append, List.filterMap_cons]
    have h1 := filterMap_pair_eq_of_nodup d cr.1 cr.2 (hnd cr (List.mem_cons_self _ _))
    have h2 := ih fun p hp => hnd p (List.mem_cons_of_mem _ hp)
    unfold eventsCities cityEvents at h2
    rw [h1, h2]
    by_cases hd : d ∈ cr.2
    · rw [if_pos hd, if_pos hd, List.singleton_append]
    · rw [if_neg hd, if_neg hd, List.nil_append]

theorem lookupA_cityAgg (pairs : List (String × List String)) (d : String) :
    (lookupA d (cityAgg pairs)).getD [] = eventsCities d (cityEvents pairs) := by
  rw [cityAgg_eq_events_fold, lookupA_events_fold]
  show ((match (none : Option (List String)) with
    | some vs => some (vs ++ eventsCities d (cityEvents pairs))
    | none => if eventsCities d (cityEvents pairs) = [] then none
              else some (eventsCities d (cityEvents pairs)))).getD [] = _
  by_cases h : eventsCities d (cityEvents pairs) = []
  · rw [show (match (none : Option (List String)) with
      | some vs => some (vs ++ eventsCities d (cityEvents pairs))
      | none => if eventsCities d (cityEvents pairs) = [] then none
                else some (eventsCities d (cityEvents pairs))) =
        (if eventsCities d (cityEvents pairs) = [] then none
         else some (eventsCities d (cityEvents pairs))) from rfl, if_pos h, h]
    rfl
  · rw [show (match (none : Option (List String)) with
      | some vs => some (vs ++ eventsCities d (cityEvents pairs))
      | none => if eventsCities d (cityEvents pairs) = [] then none
                else some (eventsCities d (cityEvents pairs))) =
        (if eventsCities d (cityEvents pairs) = [] then none
         else some (eventsCities d (cityEvents pairs))) from rfl, if_neg h]
    rfl

theorem keysA_cityAgg (pairs : List (String × List String)) :
    keysA (cityAgg pairs) = firstSeen (pairs.flatMap Prod.snd) := by
  rw [cityAgg_eq_events_fold, keysA_events_fold]
  show [] ++ firstSeenAux (keysA ([] : List (String × List String)))
      ((cityEvents pairs).map Prod.fst) = _
  rw [List.nil_append, cityEvents_map_fst]
  rfl

theorem filterMap_if_fst_sublist (d : String) :
    ∀ pairs : List (String × List String),
      pairs.filterMap (fun cr => if d ∈ cr.2 then some cr.1 else none) <+
        pairs.map Prod.fst := by
  intro pairs
  induction pairs with
  | nil => simp
  | cons cr rest ih =>
    rw [List.filterMap_cons, List.map_cons]
    by_cases hd : d ∈ cr.2
    · rw [if_pos hd]
      exact ih.cons₂ _
    · rw [if_neg hd]
      exact ih.cons _

theorem map_fst_zip_sublist :
    ∀ (l1 : List String) (l2 : List (List String)), (l1.zip l2).map Prod.fst <+ l1 := by
  intro l1
  induction l1 with
  | nil => intro l2; simp
  | cons x xs ih =>
    intro l2
    cases l2 with
    | nil => simp
    | cons y ys =>
      rw [List.zip_cons_cons, List.map_cons]
      exact (ih ys).cons₂ _

theorem localesOf_sublist (cities : List String) (results : List (List String)) (d : String) :
    localesOf cities results d <+ cities :=
  (filterMap_if_fst_sublist d (cities.zip results)).trans (map_fst_zip_sublist cities results)

/-- C5: with duplicate-free locales and duplicate-free per-locale results, the
discovery output domain list is sorted descending by the number of distinct
locales each domain appeared in (ties keep first-encounter order, stated as:
for every count, the output restricted to that count is a prefix of the
encounter order restricted to that count), and is capped at 7 domains. -/
theorem C5_dominance_ranking (cities : List String) (results : List (List String))
    (h1 : cities.Nodup) (h2 : ∀ r ∈ results, r.Nodup) :
    (((rankDiscoveredDomains cities results).map Prod.fst).Sorted
        fun a b => (localesOf cities results b).length ≤ (localesOf cities results a).length) ∧
    (∀ d, (localesOf cities results d).Nodup) ∧
    (∀ d c, c ∈ localesOf cities results d ↔ ∃ r, (c, r) ∈ cities.zip results ∧ d ∈ r) ∧
    (∀ k : Nat, ((rankDiscoveredDomains cities results).map Prod.fst).filter
        (fun d => (localesOf cities results d).length = k) <+:
      (firstSeen ((cities.zip results).flatMap Prod.snd)).filter
        (fun d => (localesOf cities results d).length = k)) ∧
    ((rankDiscoveredDomains cities results).map Prod.fst).length ≤ 7 := by
  have hpairnd : ∀ p ∈ cities.zip results, p.2.Nodup :=
    fun p hp => h2 p.2 (List.of_mem_zip hp).2
  have hloc : ∀ d, (lookupA d (cityAgg (cities.zip results))).getD [] =
      localesOf cities results d := by
    intro d
    rw [lookupA_cityAgg, eventsCities_eq_localesOf d _ hpairnd]
    rfl
  have hfun : (fun d => ((lookupA d (cityAgg (cities.zip results))).getD []).length) =
      (fun d => (localesOf cities results d).length) := by
    funext d
    rw [hloc]
  have hout : (rankDiscoveredDomains cities results).map Prod.fst =
      (pySortDesc (fun d => (localesOf cities results d).length)
        (keysA (cityAgg (cities.zip results)))).take 7 := by
    simp only [rankDiscoveredDomains]
    rw [List.map_map, show (Prod.fst ∘ fun d =>
      (d, (lookupA d (cityAgg (cities.zip results))).getD [])) = id from rfl, List.map_id]
    rw [hfun]
  refine ⟨?_, ?_, ?_, ?_, ?_⟩
  · rw [hout]
    exact (pySortDesc_sorted _ _).sublist (List.take_sublist _ _)
  · intro d
    exact (localesOf_sublist cities results d).nodup h1
  · intro d c
    unfold localesOf
    rw [List.mem_filterMap]
    constructor
    · rintro ⟨cr, hcr, heq⟩
      by_cases hd : d ∈ cr.2
      · rw [if_pos hd] at heq
        cases heq
        exact ⟨cr.2, hcr, hd⟩
      · rw [if_neg hd] at heq
        cases heq
    · rintro ⟨r, hr, hd⟩
      exact ⟨(c, r), hr, by rw [if_pos hd]⟩
  · intro k
    rw [hout, keysA_cityAgg]
    have hpre := List.IsPrefix.filter
      (fun d => decide ((localesOf cities results d).length = k))
      (List.take_prefix 7 (pySortDesc (fun d => (localesOf cities results d).length)
        (firstSeen ((cities.zip results).flatMap Prod.snd))))
    rw [pySortDesc_filter_key] at hpre
    exact hpre
  · rw [hout]
    exact (List.length_take_le _ _).trans (by norm_num)

/-- Concrete instantiation of C5: domain "a.com" appears in two locales,
"b.com" in one; the output is sorted by distinct-locale count descending. -/
theorem C5_witness :
    (((rankDiscoveredDomains ["Gilbert", "Chandler"] [["a.com", "b.com"], ["a.com"]]).map
        Prod.fst).Sorted fun a b =>
      (localesOf ["Gilbert", "Chandler"] [["a.com", "b.com"], ["a.com"]] b).length ≤
        (localesOf ["Gilbert", "Chandler"] [["a.com", "b.com"], ["a.com"]] a).length) :=
  (C5_dominance_ranking ["Gilbert", "Chandler"] [["a.com", "b.com"], ["a.com"]]
    (by decide) (by decide)).1
/-! ### Market-leader selection (`run_prospect_audit`, phase 3) -/

/-- One competitor profile dict as returned by `_fetch_one` /
`_profile_competitors`. -/
structure Profile where
  domain : String
  cities : List String := []
  keywords : Int := 0
  traffic : Int := 0
  etv_cost : Int := 0
  top_kws : List KwRec := []
  deriving DecidableEq

/-- The market-leader selection of `run_prospect_audit`:
`local_competitors[0] if local_competitors else (competitor_profiles[0] if
competitor_profiles else None)`, where `local_competitors` filters out large
chains. -/
def marketLeader (competitor_profiles : List Profile) : Option Profile :=
  let local_competitors := competitor_profiles.filter fun p => !(_is_large_chain p.domain)
  if local_competitors ≠ [] then local_competitors.head?
  else competitor_profiles.head?

/-- C6 counterexample: when every profiled competitor is a large chain, the
fallback selects the top profile — a chain — as market leader, so the leader
is not "never" a chain domain. -/
theorem C6_counterexample :
    marketLeader (pySortDesc (fun p : Profile => p.traffic)
        [{ domain := "rotorooter.com", traffic := 500 }]) =
      some { domain := "rotorooter.com", traffic := 500 } ∧
    _is_large_chain "rotorooter.com" = true := by
  constructor
  · rfl
  · decide

/-- C6 (amended): whenever at least one profiled competitor is not a large
chain, the market leader selected from the traffic-sorted profile list is a
non-chain profile whose traffic is maximal among non-chain profiles; only when
every profile is a chain does the code fall back to the overall top profile
(a chain). -/
theorem C6_market_leader_amended (profiles : List Profile)
    (hx : ∃ p ∈ profiles, _is_large_chain p.domain = false) :
    ∃ lp, marketLeader (pySortDesc (fun p : Profile => p.traffic) profiles) = some lp ∧
      _is_large_chain lp.domain = false ∧ lp ∈ profiles ∧
      ∀ q ∈ profiles, _is_large_chain q.domain = false → q.traffic ≤ lp.traffic := by
  obtain ⟨p₀, hp₀, hchain₀⟩ := hx
  have hp₀s : p₀ ∈ pySortDesc (fun p : Profile => p.traffic) profiles :=
    (pySortDesc_perm _ _).mem_iff.mpr hp₀
  have hp₀l : p₀ ∈ (pySortDesc (fun p : Profile => p.traffic) profiles).filter
      (fun p => !(_is_large_chain p.domain)) :=
    List.mem_filter.mpr ⟨hp₀s, by simp [hchain₀]⟩
  rcases hls : (pySortDesc (fun p : Profile => p.traffic) profiles).filter
      (fun p => !(_is_large_chain p.domain)) with _ | ⟨lp, ls⟩
  · rw [hls] at hp₀l
    cases hp₀l
  · have hml : marketLeader (pySortDesc (fun p : Profile => p.traffic) profiles) = some lp := by
      simp only [marketLeader]
      rw [hls]
      rw [if_pos (by simp)]
      rfl
    have hlpl : lp ∈ (pySortDesc (fun p : Profile => p.traffic) profiles).filter
        (fun p => !(_is_large_chain p.domain)) := by
      rw [hls]
      exact List.mem_cons_self _ _
    have hlpchain : _is_large_chain lp.domain = false := by
      have := (List.mem_filter.mp hlpl).2
      simpa using this
    have hlps : lp ∈ pySortDesc (fun p : Profile => p.traffic) profiles :=
      (List.mem_filter.mp hlpl).1
    refine ⟨lp, hml, hlpchain, (pySortDesc_perm _ _).mem_iff.mp hlps, ?_⟩
    intro q hq hqchain
    have hqs : q ∈ pySortDesc (fun p : Profile => p.traffic) profiles :=
      (pySortDesc_perm _ _).mem_iff.mpr hq
    have hql : q ∈ (pySortDesc (fun p : Profile => p.traffic) profiles).filter
        (fun p => !(_is_large_chain p.domain)) :=
      List.mem_filter.mpr ⟨hqs, by simp [hqchain]⟩
    have hsorted : ((pySortDesc (fun p : Profile => p.traffic) profiles).filter
        (fun p => !(_is_large_chain p.domain))).Sorted
          (fun a b : Profile => b.traffic ≤ a.traffic) :=
      (pySortDesc_sorted _ _).filter _
    rw [hls] at hsorted hql
    rcases List.mem_cons.mp hql with h1 | h1
    · exact h1 ▸ le_refl _
    · exact List.rel_of_sorted_cons hsorted q h1

/-- Concrete instantiation of C6 (amended): a chain with more traffic than a
local competitor is skipped; the local competitor is the market leader. -/
theorem C6_witness :
    ∃ lp, marketLeader (pySortDesc (fun p : Profile => p.traffic)
        [{ domain := "rotorooter.com", traffic := 900 },
         { domain := "gilbertplumbing.com", traffic := 100 }]) = some lp ∧
      _is_large_chain lp.domain = false ∧
      lp ∈ [({ domain := "rotorooter.com", traffic := 900 } : Profile),
            { domain := "gilbertplumbing.com", traffic := 100 }] ∧
      ∀ q ∈ [({ domain := "rotorooter.com", traffic := 900 } : Profile),
             { domain := "gilbertplumbing.com", traffic := 100 }],
        _is_large_chain q.domain = false → q.traffic ≤ lp.traffic :=
  C6_market_leader_amended
    [{ domain := "rotorooter.com", traffic := 900 },
     { domain := "gilbertplumbing.com", traffic := 100 }]
    ⟨{ domain := "gilbertplumbing.com", traffic := 100 }, by decide, by decide⟩

/-! ### C7: partial-failure resilience of metro discovery -/

theorem take_ne_nil_of_ne_nil {α : Type} {l : List α} (h : l ≠ []) (n : Nat) :
    l.take (n + 1) ≠ [] := by
  cases l with
  | nil => exact absurd rfl h
  | cons x xs => simp

/-- C7: a per-locale discovery call that raises degrades to an empty list for
that locale only — the engine behaves exactly as if that locale had returned
no domains — and whenever some locale's call succeeds with a non-excluded
domain, the engine's output is nonempty (the domains found from the succeeding
locales are returned, not an empty list, and no exception escapes: the
function is total). -/
theorem C7_partial_failure_resilience (hasCreds : Bool)
    (env : String → Except String (List String)) (cities : List String) :
    _discover_metro_competitors hasCreds env cities =
      _discover_metro_competitors hasCreds
        (fun c => Except.ok ((env c).toOption.getD [])) cities ∧
    (∀ c ∈ cities, ∀ ds, env c = Except.ok ds →
      ∀ d ∈ ds, _is_excluded_domain d = false →
        _discover_metro_competitors true env cities ≠ []) := by
  have hsearch : ∀ c, _search_city env c =
      _search_city (fun c => Except.ok ((env c).toOption.getD [])) c := by
    intro c
    rcases h : env c with e | ds
    · simp [_search_city, h, Except.toOption]
    · simp [_search_city, h, Except.toOption]
  constructor
  · unfold _discover_metro_competitors
    by_cases hc : hasCreds
    · rw [if_neg (by simp [hc]), if_neg (by simp [hc])]
      congr 1
      exact List.map_congr_left fun c _ => hsearch c
    · simp only [Bool.not_eq_true] at hc
      rw [hc]
      rfl
  · intro c hc ds hds d hd hexc
    have hne : _search_city env c ≠ [] := by
      unfold _search_city
      rw [hds]
      have : d ∈ ds.filter (fun d => !(_is_excluded_domain d)) :=
        List.mem_filter.mpr ⟨hd, by simp [hexc]⟩
      have hf : ds.filter (fun d => !(_is_excluded_domain d)) ≠ [] :=
        List.ne_nil_of_mem this
      exact take_ne_nil_of_ne_nil hf 3
    unfold _discover_metro_competitors
    rw [if_neg (by simp)]
    unfold rankDiscoveredDomains
    -- the aggregation keys are nonempty, hence so is the capped sorted output
    have hzip : cities.zip (cities.map (_search_city env)) =
        cities.map fun a => (a, _search_city env a) := by
      clear hne hds hd hexc hc
      induction cities with
      | nil => rfl
      | cons x xs ih => rw [List.map_cons, List.zip_cons_cons, ih, List.map_cons]
    have hflat : ∃ x, x ∈ (cities.zip (cities.map (_search_city env))).flatMap Prod.snd := by
      obtain ⟨x, hx⟩ := List.exists_mem_of_ne_nil _ hne
      refine ⟨x, List.mem_flatMap.mpr ⟨(c, _search_city env c), ?_, hx⟩⟩
      rw [hzip]
      exact List.mem_map.mpr ⟨c, hc, rfl⟩
    obtain ⟨x, hx⟩ := hflat
    have hkeys : keysA (cityAgg (cities.zip (cities.map (_search_city env)))) ≠ [] := by
      rw [keysA_cityAgg]
      refine List.ne_nil_of_mem (a := x) ?_
      rw [firstSeen, mem_firstSeenAux]
      exact ⟨hx, by simp⟩
    have hsortne : pySortDesc
        (fun d => ((lookupA d (cityAgg (cities.zip (cities.map (_search_city env))))).getD
          []).length)
        (keysA (cityAgg (cities.zip (cities.map (_search_city env))))) ≠ [] := by
      intro hnil
      have := (pySortDesc_perm (fun d =>
        ((lookupA d (cityAgg (cities.zip (cities.map (_search_city env))))).getD []).length)
        (keysA (cityAgg (cities.zip (cities.map (_search_city env)))))).length_eq
      rw [hnil] at this
      simp at this
      exact hkeys (List.eq_nil_of_length_eq_zero this.symm)
    intro hout
    have h1 := List.map_eq_nil_iff.mp hout
    exact take_ne_nil_of_ne_nil hsortne 6 h1

/-- Concrete instantiation of C7: five locales, the calls for "Mesa" and
"Tempe" raise, "Gilbert" succeeds with one local domain — the engine still
returns a nonempty domain list. -/
theorem C7_witness :
    _discover_metro_competitors true
      (fun c => if c = "Mesa" ∨ c = "Tempe" then Except.error "TransportError"
                else Except.ok ["gilbertplumbing.com"])
      ["Gilbert", "Chandler", "Mesa", "Tempe", "Phoenix"] ≠ [] :=
  (C7_partial_failure_resilience true
      (fun c => if c = "Mesa" ∨ c = "Tempe" then Except.error "TransportError"
                else Except.ok ["gilbertplumbing.com"])
      ["Gilbert", "Chandler", "Mesa", "Tempe", "Phoenix"]).2
    "Gilbert" (by decide) ["gilbertplumbing.com"] (by rfl)
    "gilbertplumbing.com" (by decide) (by decide)

/-! ### C8: domain overview lookup and the per-domain profiling fan-out -/

/-- Modelled from the spec: `get_domain_rank_overview` is imported by the
workflows from `utils.dataforseo` but its definition is missing from the
source tree.  Per the spec the adapter's domain-overview lookup takes a domain
and a locale and returns the aggregate fields {total_keywords,
estimated_traffic, estimated_traffic_value}; callers (`_fetch_one`,
`_get_prospect_rank`) read them as the dict keys "keywords", "etv",
"etv_cost", which name these fields here. -/
structure Overview where
  keywords : Int := 0
  etv : Int := 0
  etv_cost : Int := 0
  deriving DecidableEq

/-- The external calls made by `_fetch_one`: the (spec-modelled) domain
overview lookup, the DFS Labs ranked-keywords lookup (domain, locale, limit),
and the Search Atlas fallback; `Except.error` models a raised exception. -/
structure ProfileEnv where
  get_domain_rank_overview : String → String → Except String Overview
  get_domain_ranked_keywords : String → String → Nat → Except String (List KwRec)
  sa_organic_keywords : String → Except String (List KwRec)

/-- `_fetch_one(domain, cities)` from `_profile_competitors`: fetch the
domain's aggregate overview and its ranked keywords (limit 200) in one
`asyncio.gather` fan-out, degrade each failure to a default, and replace a
sparse (< 3 keywords) result with the Search Atlas fallback when it returns
any records. -/
def _fetch_one (env : ProfileEnv) (domain : String) (cities : List String)
    (location_name : String) : Profile :=
  let overview := match env.get_domain_rank_overview domain location_name with
    | .ok o => o
    | .error _ => { keywords := 0, etv := 0, etv_cost := 0 }
  let dfs_kws := match env.get_domain_ranked_keywords domain location_name 200 with
    | .ok l => l
    | .error _ => []
  let top_kws := if dfs_kws.length < 3 then
      match env.sa_organic_keywords domain with
      | .ok sa_kws => if sa_kws ≠ [] then sa_kws else dfs_kws
      | .error _ => dfs_kws
    else dfs_kws
  { domain := domain, cities := cities, keywords := overview.keywords,
    traffic := overview.etv, etv_cost := overview.etv_cost, top_kws := top_kws }

/-- C8: the adapter's domain-overview lookup takes a domain and a locale and
returns the three aggregate fields, and for each profiled domain `_fetch_one`
invokes `get_domain_rank_overview(domain, locale)` together with the ranked
keyword fetch `(domain, locale, 200)` for that same domain, copying the
overview's three aggregates into the profile alongside the fetched keywords. -/
theorem C8_overview_lookup_profiled (env : ProfileEnv) (domain location_name : String)
    (cities : List String) (o : Overview) (kws : List KwRec)
    (ho : env.get_domain_rank_overview domain location_name = Except.ok o)
    (hk : env.get_domain_ranked_keywords domain location_name 200 = Except.ok kws)
    (h3 : 3 ≤ kws.length) :
    _fetch_one env domain cities location_name =
      { domain := domain, cities := cities, keywords := o.keywords,
        traffic := o.etv, etv_cost := o.etv_cost, top_kws := kws } := by
  simp only [_fetch_one, ho, hk]
  rw [if_neg (by omega)]

/-- Concrete instantiation of C8 with a three-keyword environment. -/
theorem C8_witness :
    _fetch_one
      { get_domain_rank_overview := fun _ _ =>
          Except.ok { keywords := 120, etv := 900, etv_cost := 3500 }
        get_domain_ranked_keywords := fun _ _ _ =>
          Except.ok [{ keyword := some "a" }, { keyword := some "b" }, { keyword := some "c" }]
        sa_organic_keywords := fun _ => Except.error "unused" }
      "ezflowplumbing.com" ["Gilbert"] "United States" =
      { domain := "ezflowplumbing.com", cities := ["Gilbert"], keywords := 120,
        traffic := 900, etv_cost := 3500,
        top_kws := [{ keyword := some "a" }, { keyword := some "b" },
                    { keyword := some "c" }] } :=
  C8_overview_lookup_profiled
    { get_domain_rank_overview := fun _ _ =>
        Except.ok { keywords := 120, etv := 900, etv_cost := 3500 }
      get_domain_ranked_keywords := fun _ _ _ =>
        Except.ok [{ keyword := some "a" }, { keyword := some "b" }, { keyword := some "c" }]
      sa_organic_keywords := fun _ => Except.error "unused" }
    "ezflowplumbing.com" "United States" ["Gilbert"]
    { keywords := 120, etv := 900, etv_cost := 3500 }
    [{ keyword := some "a" }, { keyword := some "b" }, { keyword := some "c" }]
    rfl rfl (by decide)

/-! ### C10: keyword-volume lookup re-orders the provider's results -/

/-- One raw provider item of the search-volume response (`None` / falsy items
are skipped by the parser and modelled as `none` at the list level). -/
structure RawVolItem where
  keyword : Option String := none
  search_volume : Option Nat := none
  cpc : Option ℚ := none
  competition : Option ℚ := none
  competition_level : Option String := none

/-- One parsed keyword-volume record as appended by
`get_keyword_search_volumes`. -/
structure VolRec where
  keyword : String
  search_volume : Nat
  cpc : Option ℚ
  competition : Option ℚ
  competition_level : String
  deriving DecidableEq

/-- The result-parsing loop of `get_keyword_search_volumes`. -/
def parseKeywordVolumeItems (items : List (Option RawVolItem)) : List VolRec :=
  items.filterMap fun it =>
    match it with
    | none => none
    | some item => some
      { keyword := item.keyword.getD ""
        search_volume := item.search_volume.getD 0
        cpc := item.cpc
        competition := item.competition
        competition_level := item.competition_level.getD "" }

/-- The result-processing of `get_keyword_search_volumes(keywords,
location_name)` applied to the provider response's items (request construction
and transport sit outside the embedding): parse each truthy item, then return
`sorted(results, key=search_volume or 0, reverse=True)`. -/
def get_keyword_search_volumes (items : List (Option RawVolItem)) : List VolRec :=
  pySortDesc (fun r => r.search_volume) (parseKeywordVolumeItems items)

/-- C10: for every provider response, the keyword-volume lookup returns the
parsed records re-ordered into descending `search_volume` order (a missing
volume having been defaulted to 0 by the parser). -/
theorem C10_volumes_sorted_desc (items : List (Option RawVolItem)) :
    ((get_keyword_search_volumes items).Sorted
      fun a b => b.search_volume ≤ a.search_volume) ∧
    get_keyword_search_volumes items ~ parseKeywordVolumeItems items :=
  ⟨pySortDesc_sorted _ _, pySortDesc_perm _ _⟩

/-! ### C9: `_domain_from_url` (dataforseo.py) and its idempotence

`urllib.parse.urlparse(url).netloc` is modelled for ASCII inputs after
CPython's `urlsplit`: the URL is first stripped of leading C0-control/space
characters and of all tab/CR/LF characters; a leading `scheme:` (first char an
ASCII letter, all chars in the scheme alphabet, first `:` not at position 0)
is removed; the netloc is present only after a leading `//` and extends to the
first `/`, `?` or `#`.  A netloc containing a bracket is modelled as a parse
failure (`none`): CPython raises `ValueError` for unbalanced brackets and
validates bracketed hosts as IP literals, raising for non-IP contents, so the
model stays sound by asserting nothing for bracketed hosts.  The non-ASCII
NFKC check (which can also raise) is outside the model, hence the ASCII
restriction in the idempotence theorem. -/

/-- WHATWG C0 control or space, lstripped by `urlsplit`. -/
def isC0OrSpace (c : Char) : Bool := c.toNat ≤ 32

/-- Tab, CR, LF — removed everywhere by `urlsplit`. -/
def isUnsafeUrlByte (c : Char) : Bool := c.toNat = 9 ∨ c.toNat = 13 ∨ c.toNat = 10

/-- ASCII letters. -/
def isAsciiAlpha (c : Char) : Bool :=
  (65 ≤ c.toNat ∧ c.toNat ≤ 90) ∨ (97 ≤ c.toNat ∧ c.toNat ≤ 122)

/-- `scheme_chars`: ASCII letters, digits, `+`, `-`, `.`. -/
def isSchemeChar (c : Char) : Bool :=
  isAsciiAlpha c ∨ (48 ≤ c.toNat ∧ c.toNat ≤ 57) ∨ c = '+' ∨ c = '-' ∨ c = '.'

/-- Model of Python `str.startswith(pre)`. -/
def pyStartswith (s pre : String) : Bool := decide (pre.data <+: s.data)

/-- The character cleanup done by `urlsplit` before parsing. -/
def urlClean (url : String) : List Char :=
  (url.data.dropWhile isC0OrSpace).filter fun c => !(isUnsafeUrlByte c)

/-- The `scheme:` removal of `urlsplit`. -/
def urlRemoveScheme (u : List Char) : List Char :=
  if (':') ∈ u then
    match u.takeWhile (fun c => c ≠ ':') with
    | [] => u
    | c0 :: pre' =>
      if isAsciiAlpha c0 ∧ (c0 :: pre').all isSchemeChar then
        u.drop ((c0 :: pre').length + 1)
      else u
  else u

/-- `urllib.parse.urlparse(url).netloc` (see the section comment for scope). -/
def pyNetloc (url : String) : Option String :=
  let rest := urlRemoveScheme (urlClean url)
  if rest.take 2 = ['/', '/'] then
    let netloc := (rest.drop 2).takeWhile fun c => !(c = '/' ∨ c = '?' ∨ c = '#')
    if '[' ∈ netloc ∨ ']' ∈ netloc then none else some ⟨netloc⟩
  else some ""

/-- `_domain_from_url(url)`: extract the bare domain from any URL string;
`none` models a `ValueError` raised by `urlparse`. -/
def _domain_from_url (url : String) : Option String :=
  if url = "" then some ""
  else
    let u := if pyStartswith url "http" then url else "https://" ++ url
    (pyNetloc u).map fun n => pyStripSlash (pyRemove n "www.")

theorem urlRemoveScheme_sublist (u : List Char) : urlRemoveScheme u <+ u := by
  unfold urlRemoveScheme
  split
  · split
    · exact List.Sublist.refl u
    · split
      · exact List.drop_sublist _ u
      · exact List.Sublist.refl u
  · exact List.Sublist.refl u

theorem mem_removeAllAux (pat : List Char) :
    ∀ (f : Nat) (l : List Char) (c : Char), c ∈ removeAllAux pat f l → c ∈ l := by
  intro f
  induction f with
  | zero =>
    intro l c hc
    cases l with
    | nil => exact absurd hc (List.not_mem_nil c)
    | cons x xs => exact hc
  | succ f ih =>
    intro l c hc
    cases l with
    | nil => exact absurd hc (List.not_mem_nil c)
    | cons x xs =>
      by_cases h : pat ≠ [] ∧ pat <+: (x :: xs)
      · rw [show removeAllAux pat (f + 1) (x :: xs) =
            removeAllAux pat f ((x :: xs).drop pat.length) from by
          show (if pat ≠ [] ∧ pat <+: (x :: xs) then _ else _) = _
          rw [if_pos h]] at hc
        exact (List.drop_sublist _ _).mem (ih _ c hc)
      · rw [show removeAllAux pat (f + 1) (x :: xs) = x :: removeAllAux pat f xs from by
          show (if pat ≠ [] ∧ pat <+: (x :: xs) then _ else _) = _
          rw [if_neg h]] at hc
        rcases List.mem_cons.mp hc with h1 | h1
        · exact h1 ▸ List.mem_cons_self _ _
        · exact List.mem_cons_of_mem _ (ih _ c h1)

theorem mem_removeAll {pat l : List Char} {c : Char} (hc : c ∈ removeAll pat l) : c ∈ l :=
  mem_removeAllAux pat l.length l c hc

theorem removeAllAux_eq_self_of_no_occ (pat : List Char) :
    ∀ (f : Nat) (l : List Char), ¬(pat <:+: l) → removeAllAux pat f l = l := by
  intro f
  induction f with
  | zero =>
    intro l _
    cases l <;> rfl
  | succ f ih =>
    intro l hinf
    cases l with
    | nil => rfl
    | cons x xs =>
      have hnp : ¬(pat ≠ [] ∧ pat <+: (x :: xs)) := by
        rintro ⟨_, hp⟩
        exact hinf hp.isInfix
      show (if pat ≠ [] ∧ pat <+: (x :: xs) then _ else _) = _
      rw [if_neg hnp]
      congr 1
      refine ih xs fun hc => hinf ?_
      exact List.infix_cons hc

theorem removeAll_eq_self_of_no_occ {pat l : List Char} (h : ¬(pat <:+: l)) :
    removeAll pat l = l :=
  removeAllAux_eq_self_of_no_occ pat l.length l h

theorem dropWhile_eq_self_of_all_neg {p : Char → Bool} :
    ∀ {l : List Char}, (∀ c ∈ l, p c = false) → l.dropWhile p = l
  | [], _ => rfl
  | c :: cs, h => by
    rw [List.dropWhile_cons, if_neg (by simp [h c (List.mem_cons_self c cs)])]

theorem takeWhile_eq_self_of_all_pos {p : Char → Bool} :
    ∀ {l : List Char}, (∀ c ∈ l, p c = true) → l.takeWhile p = l
  | [], _ => rfl
  | c :: cs, h => by
    rw [List.takeWhile_cons, if_pos (h c (List.mem_cons_self c cs))]
    exact congrArg (c :: ·) (takeWhile_eq_self_of_all_pos fun d hd => h d (List.mem_cons_of_mem c hd))

theorem mem_of_mem_stripBothWhile {p : Char → Bool} {l : List Char} {c : Char}
    (hc : c ∈ stripBothWhile p l) : c ∈ l := by
  unfold stripBothWhile at hc
  rw [List.mem_reverse] at hc
  have h1 : c ∈ (l.dropWhile p).reverse := (List.dropWhile_sublist p).mem hc
  rw [List.mem_reverse] at h1
  exact (List.dropWhile_sublist p).mem h1

theorem stripBothWhile_eq_self_of_all_neg {p : Char → Bool} {l : List Char}
    (h : ∀ c ∈ l, p c = false) : stripBothWhile p l = l := by
  unfold stripBothWhile
  rw [dropWhile_eq_self_of_all_neg h, dropWhile_eq_self_of_all_neg
    (fun c hc => h c (List.mem_reverse.mp hc)), List.reverse_reverse]

theorem pyNetloc_some_props {url n : String} (h : pyNetloc url = some n) :
    ∀ c ∈ n.data, ¬(c = '/' ∨ c = '?' ∨ c = '#') ∧ isUnsafeUrlByte c = false ∧
      c ≠ '[' ∧ c ≠ ']' := by
  intro c hc
  simp only [pyNetloc] at h
  by_cases h2 : (urlRemoveScheme (urlClean url)).take 2 = ['/', '/']
  · rw [if_pos h2] at h
    by_cases h3 : '[' ∈ ((urlRemoveScheme (urlClean url)).drop 2).takeWhile
        (fun c => !(c = '/' ∨ c = '?' ∨ c = '#')) ∨
        ']' ∈ ((urlRemoveScheme (urlClean url)).drop 2).takeWhile
        (fun c => !(c = '/' ∨ c = '?' ∨ c = '#'))
    · rw [if_pos h3] at h
      exact absurd h (by simp)
    · rw [if_neg h3] at h
      have hn : n.data = ((urlRemoveScheme (urlClean url)).drop 2).takeWhile
          (fun c => !(c = '/' ∨ c = '?' ∨ c = '#')) := by
        rw [← Option.some.inj h]
      rw [hn] at hc
      refine ⟨?_, ?_, ?_, ?_⟩
      · have hp := List.mem_takeWhile_imp hc
        simpa using hp
      · have h4 : c ∈ (urlRemoveScheme (urlClean url)).drop 2 :=
          (List.takeWhile_sublist _).mem hc
        have h5 : c ∈ urlRemoveScheme (urlClean url) := (List.drop_sublist 2 _).mem h4
        have h6 : c ∈ urlClean url := (urlRemoveScheme_sublist _).mem h5
        have h7 := List.of_mem_filter h6
        simpa using h7
      · intro hcl
        exact h3 (Or.inl (hcl ▸ hc))
      · intro hcr
        exact h3 (Or.inr (hcr ▸ hc))
  · rw [if_neg h2] at h
    have hn : n = "" := (Option.some.inj h).symm
    subst hn
    exact absurd hc (List.not_mem_nil c)

theorem pyNetloc_https (d : String)
    (hclean : ∀ c ∈ d.data, isUnsafeUrlByte c = false)
    (hdelim : ∀ c ∈ d.data, ¬(c = '/' ∨ c = '?' ∨ c = '#'))
    (hbl : '[' ∉ d.data) (hbr : ']' ∉ d.data) :
    pyNetloc ("https://" ++ d) = some d := by
  have hdata : ("https://" ++ d).data
      = 'h' :: 't' :: 't' :: 'p' :: 's' :: ':' :: '/' :: '/' :: d.data := by
    rw [String.data_append]
    rfl
  have hfilter : d.data.filter (fun c => !(isUnsafeUrlByte c)) = d.data :=
    List.filter_eq_self.mpr fun c hc => by simp [hclean c hc]
  have hclean8 : urlClean ("https://" ++ d)
      = 'h' :: 't' :: 't' :: 'p' :: 's' :: ':' :: '/' :: '/' :: d.data := by
    unfold urlClean
    rw [hdata]
    show 'h' :: 't' :: 't' :: 'p' :: 's' :: ':' :: '/' :: '/' ::
      (d.data.filter fun c => !(isUnsafeUrlByte c)) = _
    rw [hfilter]
  have htw : ('h' :: 't' :: 't' :: 'p' :: 's' :: ':' :: '/' :: '/' :: d.data).takeWhile
      (fun c => c ≠ ':') = ['h', 't', 't', 'p', 's'] := by
    rw [List.takeWhile_cons, if_pos (by decide), List.takeWhile_cons, if_pos (by decide),
      List.takeWhile_cons, if_pos (by decide), List.takeWhile_cons, if_pos (by decide),
      List.takeWhile_cons, if_pos (by decide), List.takeWhile_cons, if_neg (by decide)]
  have hscheme : urlRemoveScheme ('h' :: 't' :: 't' :: 'p' :: 's' :: ':' :: '/' :: '/' :: d.data)
      = '/' :: '/' :: d.data := by
    unfold urlRemoveScheme
    rw [if_pos (show (':') ∈ _ by simp), htw]
    exact if_pos (by decide)
  have htake : d.data.takeWhile (fun c => !(c = '/' ∨ c = '?' ∨ c = '#')) = d.data :=
    takeWhile_eq_self_of_all_pos fun c hc => by simp [hdelim c hc]
  simp only [pyNetloc]
  rw [hclean8, hscheme]
  rw [if_pos (show ('/' :: '/' :: d.data).take 2 = ['/', '/'] from rfl)]
  rw [show ('/' :: '/' :: d.data).drop 2 = d.data from rfl, htake]
  rw [if_neg (show ¬('[' ∈ d.data ∨ ']' ∈ d.data) from by
    rintro (hm | hm)
    · exact hbl hm
    · exact hbr hm)]

/-- C9 counterexample: `_domain_from_url` is not idempotent.  Normalizing
`"https://httpbin.org"` once yields `"httpbin.org"`, but normalizing that
result again yields `""`: the bare domain starts with `"http"`, so the
function skips prefixing a scheme, `urlparse` reads `httpbin.org` as a
relative path with an empty netloc, and the domain collapses to the empty
string. -/
theorem C9_counterexample :
    _domain_from_url "https://httpbin.org" = some "httpbin.org" ∧
    _domain_from_url "httpbin.org" = some "" ∧
    (some "" : Option String) ≠ some "httpbin.org" := by
  refine ⟨by decide, by decide, by decide⟩

/-- C9 (amended): `_domain_from_url` is idempotent on every output that does
not itself start with `"http"` and does not contain `"www."` as a substring:
if normalizing an ASCII url `s` succeeds with domain `d`, then normalizing
`d` again returns `d` unchanged.  (Outputs starting with `"http"` defeat the
scheme-prefixing check, as the counterexample shows, and an output still
containing `"www."` — e.g. from the netloc `"wwwww.w.example"` — loses a
second `"www."` on the next pass.) -/
theorem C9_normalize_idempotent_amended (s d : String)
    (hascii : ∀ c ∈ s.data, c.toNat ≤ 127)
    (h : _domain_from_url s = some d)
    (hhttp : pyStartswith d "http" = false)
    (hwww : strContains d "www." = false) :
    _domain_from_url d = some d := by
  by_cases hd0 : d = ""
  · subst hd0
    unfold _domain_from_url
    rw [if_pos rfl]
  · by_cases hs0 : s = ""
    · subst hs0
      unfold _domain_from_url at h
      rw [if_pos rfl] at h
      exact absurd (Option.some.inj h).symm hd0
    · simp only [_domain_from_url] at h
      rw [if_neg hs0] at h
      rcases hn : pyNetloc (if pyStartswith s "http" = true then s else "https://" ++ s)
        with _ | n
      · rw [hn] at h
        exact absurd h (by simp)
      · rw [hn] at h
        have hd : pyStripSlash (pyRemove n "www.") = d := Option.some.inj h
        have hprops := pyNetloc_some_props hn
        have hsub : ∀ c ∈ d.data, c ∈ n.data := by
          intro c hc
          rw [← hd] at hc
          exact mem_removeAll (mem_of_mem_stripBothWhile hc)
        have hrm : pyRemove d "www." = d := by
          unfold pyRemove
          rw [removeAll_eq_self_of_no_occ (of_decide_eq_false hwww)]
        have hsl : pyStripSlash d = d := by
          unfold pyStripSlash
          rw [stripBothWhile_eq_self_of_all_neg fun c hc =>
            decide_eq_false fun heq => (hprops c (hsub c hc)).1 (Or.inl heq)]
        simp only [_domain_from_url]
        rw [if_neg hd0]
        rw [if_neg (show ¬(pyStartswith d "http" = true) from by simp [hhttp])]
        rw [pyNetloc_https d (fun c hc => (hprops c (hsub c hc)).2.1)
          (fun c hc => (hprops c (hsub c hc)).1)
          (fun hm => (hprops '[' (hsub _ hm)).2.2.1 rfl)
          (fun hm => (hprops ']' (hsub _ hm)).2.2.2 rfl)]
        show some (pyStripSlash (pyRemove d "www.")) = some d
        rw [hrm, hsl]

theorem C9_witness :
    _domain_from_url "acmeplumbing.com" = some "acmeplumbing.com" :=
  C9_normalize_idempotent_amended "https://www.acmeplumbing.com/services" "acmeplumbing.com"
    (by decide) (by decide) (by decide) (by decide)

end ProofPilot
